import Mathlib

/-!
# Verification of the SBM partition / entropy engine

Shallow embedding of the stochastic-block-model partition state of
`src/graph/inference/graph_blockmodel.hh` (class `BlockState`) and of the
flat-histogram sweep of `src/graph/inference/multicanonical_loop.hh`
(`multicanonical_sweep`), together with proofs about the frozen claims.

Modelling conventions:

* Machine integers (`int32_t` counters such as `mrs`, `mrp`, `mrm`, `wr`,
  vertex/edge weights) are modelled as `ℤ`; vertex and block identifiers
  (`size_t`) as `ℕ`; `double` quantities as `ℚ`, with the single
  `+infinity` return of `virtual_move` modelled as `⊤ : WithTop ℚ`.
* The embedding instantiates the directed template parameter of
  `BlockState` (`mrs` is an ordered block-pair matrix); an undirected
  graph is represented by its symmetric directed double cover, matching
  the specification's "symmetrized" `mrs`.
* The model is taken at the `rec_types = []` instantiation (weight type
  `NONE`): the covariate accumulators `brec`/`bdrec`/`brecsum` and the
  `recs` entropy channels contribute nothing and are omitted.  The
  `_egroups` edge-sampler cache and the `_partition_stats` running
  aggregates are internal caches of code that lives in
  `graph_blockmodel_util.hh` (not part of the sources) and are not part
  of the partition state; the delta terms they provide to `virtual_move`
  are modelled as abstract parameters (`TermFns` below).
* Calls into the coupled (parent-level) state are modelled by an event
  trace (`events`) for mutations and by an abstract evaluation function
  for `virtual_move`, mirroring the raw back-reference design.
-/

/-- Error values: mirrors the `ValueException` / `GraphException`
exception classes thrown by the sources. -/
inductive Exc where
  | valueException (msg : String)
  | graphException (msg : String)
deriving DecidableEq

/-- `null_group = std::numeric_limits<size_t>::max()`: the reserved
sentinel block identifier. -/
def null_group : ℕ := 2 ^ 64 - 1

/-- Calls propagated to the coupled (parent-level) state by
`move_vertex`: vacating block `r` (parent `remove_partition_node(r,
bclabel[r])` plus `set_vertex_weight(r, 0)`) or occupying block `nr`
(parent `set_vertex_weight(nr, 1)`, `add_partition_node(nr, bclabel[r])`,
`_b[nr] = bclabel[r]`). -/
inductive CEvent where
  | vacate (r lbl : ℕ)
  | occupy (nr lbl : ℕ)
deriving DecidableEq

/-- The partition state of `BlockState` (graph_blockmodel.hh).  Vertices
are `0, …, n-1`; blocks are `0, …, B-1` plus the `null_group` sentinel.
`edges` is the edge list of the observed graph: `(u, t, w)` is an edge
from `u` to `t` with edge weight `w` (`_eweight`); the position in the
list is the edge's identity (used by edge filters).  Remaining fields
are the members of `BlockState` with the same names (`events` is the
trace of calls made to `_coupled_state`, and `coupled` models
`_coupled_state != nullptr`). -/
structure BState where
  n : ℕ
  B : ℕ
  edges : List (ℕ × ℕ × ℤ)
  b : ℕ → ℕ
  bclabel : ℕ → ℕ
  vweight : ℕ → ℤ
  wr : ℕ → ℤ
  mrs : ℕ → ℕ → ℤ
  mrp : ℕ → ℤ
  mrm : ℕ → ℤ
  empty_blocks : List ℕ
  candidate_blocks : List ℕ
  deg_corr : Bool
  coupled : Bool
  events : List CEvent

/-- Modelled from the spec: `add_element` of graph_blockmodel_util.hh
(not in the sources) appends a block to an index-swap-removable list;
positions are abstracted away, membership is preserved exactly.
Appending keeps `null_group` at index 0 of `candidate_blocks`. -/
def add_element (l : List ℕ) (r : ℕ) : List ℕ := l ++ [r]

/-- Modelled from the spec: `remove_element` of graph_blockmodel_util.hh
(not in the sources) removes a block from an index-swap-removable list;
the swap with the last element is abstracted away, membership is
preserved exactly. -/
def remove_element (l : List ℕ) (r : ℕ) : List ℕ := l.erase r

/-- `BlockState::allow_move(r, nr, allow_empty)`: a move from `r` to
`nr` is allowed iff the block labels agree or (when `allow_empty`) the
target block is empty.  Both call sites in the sources use the default
`allow_empty = true`. -/
def BState.allow_move (s : BState) (r nr : ℕ) (allow_empty : Bool) : Bool :=
  if allow_empty then decide (s.bclabel r = s.bclabel nr ∨ s.wr nr = 0)
  else decide (s.bclabel r = s.bclabel nr)

/-- `BlockState::add_partition_node(v, r)`: adds `vweight[v]` to
`wr[r]` and, when the block weight rises from zero, moves `r` from
`empty_blocks` to `candidate_blocks`.  (The `_egroups` and
`_partition_stats` cache updates are omitted, see the header comment.) -/
def add_partition_node (v r : ℕ) (s : BState) : BState :=
  let s' := { s with wr := Function.update s.wr r (s.wr r + s.vweight v) }
  if 0 < s'.vweight v ∧ s'.wr r = s'.vweight v then
    { s' with empty_blocks := remove_element s'.empty_blocks r,
              candidate_blocks := add_element s'.candidate_blocks r }
  else s'

/-- `BlockState::remove_partition_node(v, r)`: subtracts `vweight[v]`
from `wr[r]` and, when the block weight reaches zero, moves `r` from
`candidate_blocks` to `empty_blocks`. -/
def remove_partition_node (v r : ℕ) (s : BState) : BState :=
  let s' := { s with wr := Function.update s.wr r (s.wr r - s.vweight v) }
  if 0 < s'.vweight v ∧ s'.wr r = 0 then
    { s' with candidate_blocks := remove_element s'.candidate_blocks r,
              empty_blocks := add_element s'.empty_blocks r }
  else s'

/-- Modelled from the spec: the move-entries delta set
(`move_entries` of graph_blockmodel_util.hh, not in the sources) for the
pure insertion (`sign = 1`, as produced by `get_move_entries(v,
null_group, bv, …)`) or pure removal (`sign = -1`, as produced by
`get_move_entries(v, bv, null_group, …)`) of vertex `v` whose block is
taken to be `bv`.  One `(r, s, δ)` entry per incident edge that the
edge filter `efilt` does not exclude: out-edges `(v, u)` give
`(bv, b[u], ±w)` (a self-loop counts once, on the out side), in-edges
`(u, v)` with `u ≠ v` give `(b[u], bv, ±w)`. -/
def move_entries_side (s : BState) (v bv : ℕ) (efilt : ℕ → Bool) (sign : ℤ) :
    List (ℕ × ℕ × ℤ) :=
  (s.edges.enum.filterMap fun ie =>
    if efilt ie.1 = false ∧ ie.2.1 = v then
      some (bv, if ie.2.2.1 = v then bv else s.b ie.2.2.1, sign * ie.2.2.2)
    else none) ++
  (s.edges.enum.filterMap fun ie =>
    if efilt ie.1 = false ∧ ie.2.2.1 = v ∧ ie.2.1 ≠ v then
      some (s.b ie.2.1, bv, sign * ie.2.2.2)
    else none)

/-- `BlockState::get_move_entries(v, r, nr, m_entries, efilt)`: the
delta set of moving `v` from `r` to `nr` (either may be `null_group`,
denoting pure insertion / removal): removal entries at `r` followed by
insertion entries at `nr`. -/
def get_move_entries (s : BState) (v r nr : ℕ) (efilt : ℕ → Bool) :
    List (ℕ × ℕ × ℤ) :=
  (if r = null_group then [] else move_entries_side s v r efilt (-1)) ++
  (if nr = null_group then [] else move_entries_side s v nr efilt 1)

/-- `m_entries.get_delta(p, q)`: the aggregate `mrs[p,q]` delta recorded
in a move-entries set. -/
def entries_delta (l : List (ℕ × ℕ × ℤ)) (p q : ℕ) : ℤ :=
  (l.filterMap fun e => if e.1 = p ∧ e.2.1 = q then some e.2.2 else none).sum

/-- The mutation applied per entry by `entries_op` inside
`BlockState::modify_vertex` (and by the internal-edge fix-up loops of
`add_vertices` / `remove_vertices`): for each `(r, s, δ)`,
`mrs[r,s] += δ`, `mrp[r] += δ`, `mrm[s] += δ`.  (The creation and
removal of block-graph edges is implicit: a block pair is present in
the block edge index iff its `mrs` entry is nonzero.) -/
def entry_apply (s : BState) (e : ℕ × ℕ × ℤ) : BState :=
  { s with
    mrs := fun p q => if p = e.1 ∧ q = e.2.1 then s.mrs p q + e.2.2 else s.mrs p q,
    mrp := Function.update s.mrp e.1 (s.mrp e.1 + e.2.2),
    mrm := Function.update s.mrm e.2.1 (s.mrm e.2.1 + e.2.2) }

def entries_op (s : BState) (l : List (ℕ × ℕ × ℤ)) : BState :=
  l.foldl entry_apply s

/-- `BlockState::modify_vertex<Add=true>(v, r, efilt)`: applies the
insertion deltas to the block edge counters, sets `b[v] = r` and calls
`add_partition_node`. -/
def modify_vertex_add (v r : ℕ) (efilt : ℕ → Bool) (s : BState) : BState :=
  let s1 := entries_op s (get_move_entries s v null_group r efilt)
  let s2 := { s1 with b := Function.update s1.b v r }
  add_partition_node v r s2

/-- `BlockState::modify_vertex<Add=false>(v, r, efilt)`: applies the
removal deltas to the block edge counters and calls
`remove_partition_node` (`b[v]` is left unchanged). -/
def modify_vertex_remove (v r : ℕ) (efilt : ℕ → Bool) (s : BState) : BState :=
  let s1 := entries_op s (get_move_entries s v r null_group efilt)
  remove_partition_node v r s1

/-- `BlockState::add_vertex(v, r)` (trivial edge filter). -/
def add_vertex (v r : ℕ) (s : BState) : BState :=
  modify_vertex_add v r (fun _ => false) s

/-- `BlockState::remove_vertex(v, r)` (trivial edge filter). -/
def remove_vertex (v r : ℕ) (s : BState) : BState :=
  modify_vertex_remove v r (fun _ => false) s

/-- The coupled-state propagation at the end of
`BlockState::move_vertex` (executed on the post-move state): when a
coupled state is attached and `vweight[v] > 0`, a vacated `r`
(`wr[r] == 0`) emits the parent-level removal of `r`, and a freshly
occupied `nr` (`wr[nr] == vweight[v]`) emits the parent-level addition
of `nr` and overwrites `bclabel[nr]` with `bclabel[r]`. -/
def move_propagate (v r nr : ℕ) (s : BState) : BState :=
  if s.coupled = true ∧ 0 < s.vweight v then
    let s1 := if s.wr r = 0 then
        { s with events := s.events ++ [CEvent.vacate r (s.bclabel r)] }
      else s
    if s1.wr nr = s1.vweight v then
      { s1 with events := s1.events ++ [CEvent.occupy nr (s1.bclabel r)],
                bclabel := Function.update s1.bclabel nr (s1.bclabel r) }
    else s1
  else s

/-- `BlockState::move_vertex(v, r, nr)`: no-op when `r == nr`; throws
`ValueException` (leaving the state untouched — the error carries no
state) when `allow_move` forbids the move; otherwise removal followed
by insertion followed by coupled-state propagation. -/
def move_vertex (v r nr : ℕ) (s : BState) : Except Exc BState :=
  if r = nr then .ok s
  else if s.allow_move r nr true = false then
    .error (.valueException "cannot move vertex across clabel barriers")
  else
    .ok (move_propagate v r nr (add_vertex v nr (remove_vertex v r s)))

/-- `BlockState::move_vertex(v, nr)`: the two-argument overload, with
`r = b[v]`. -/
def move_vertex_pub (v nr : ℕ) (s : BState) : Except Exc BState :=
  move_vertex v (s.b v) nr s

/-- Whether edge `i` of `s.edges` has both endpoints in the vertex list
`vs` (the `eset` of internal edges computed by `add_vertices` /
`remove_vertices`). -/
def internal_edge (s : BState) (vs : List ℕ) (i : ℕ) : Bool :=
  match s.edges.get? i with
  | some e => vs.contains e.1 && vs.contains e.2.1
  | none => false

/-- `BlockState::add_vertices(vs, rs)` (the C++ entry point): throws on
mismatched lengths; otherwise inserts every vertex with the internal
edges filtered out, then adds each internal edge once to the block
counters (the fix-up loop over `eset`).  The unspecified hash-map
iteration order is determinized to list order. -/
def add_vertices (vs rs : List ℕ) (s : BState) : Except Exc BState :=
  if vs.length ≠ rs.length then
    .error (.valueException "vertex and group lists do not have the same size")
  else
    let vmap := vs.zip rs
    let flt := internal_edge s vs
    let s' := vmap.foldl (fun st vr => modify_vertex_add vr.1 vr.2 flt st) s
    let fixups := s.edges.enum.filterMap fun ie =>
      if flt ie.1 = true then
        some ((vmap.lookup ie.2.1).getD 0, (vmap.lookup ie.2.2.1).getD 0, ie.2.2.2)
      else none
    .ok (entries_op s' fixups)

/-- `BlockState::remove_vertices(vs)`: removes every vertex with the
internal edges filtered out, then subtracts each internal edge once
from the block counters. -/
def remove_vertices (vs : List ℕ) (s : BState) : BState :=
  let flt := internal_edge s vs
  let s' := vs.foldl (fun st v => modify_vertex_remove v (st.b v) flt st) s
  let fixups := s.edges.enum.filterMap fun ie =>
    if flt ie.1 = true then
      some (s'.b ie.2.1, s'.b ie.2.2.1, -ie.2.2.2)
    else none
  entries_op s' fixups

/-- The `template <class Vec> move_vertices(v, nr)` member: iterates
`move_vertex` over the common prefix (`i < min(v.size(), nr.size())`)
with no length check of its own. -/
def move_vertices_t (vs nrs : List ℕ) (s : BState) : Except Exc BState :=
  (vs.zip nrs).foldlM (fun st vnr => move_vertex_pub vnr.1 vnr.2 st) s

/-- The `move_vertices(python::object, python::object)` entry point:
checks the lengths and throws `ValueException` on mismatch before
delegating to the template overload. -/
def move_vertices (vs nrs : List ℕ) (s : BState) : Except Exc BState :=
  if vs.length ≠ nrs.length then
    .error (.valueException "vertex and group lists do not have the same size")
  else move_vertices_t vs nrs s

/-- Weighted out-degree `out_degreeS()(v, g, eweight)` of the directed
instantiation: total `_eweight` of the out-edges of `v` (self-loops
included). -/
def out_degree (s : BState) (v : ℕ) : ℤ :=
  (s.edges.filterMap fun e => if e.1 = v then some e.2.2 else none).sum

/-- Weighted in-degree `in_degreeS()(v, g, eweight)` of the directed
instantiation. -/
def in_degree (s : BState) (v : ℕ) : ℤ :=
  (s.edges.filterMap fun e => if e.2.1 = v then some e.2.2 else none).sum

/-- The `entropy_args_t` switches consumed by `virtual_move`
(`degree_dl_kind` is absorbed into the abstract `delta_deg_dl` term). -/
structure EntropyArgs where
  adjacency : Bool
  dense : Bool
  multigraph : Bool
  exact : Bool
  partition_dl : Bool
  degree_dl : Bool
  edges_dl : Bool
  recs : Bool

/-- Modelled from the spec: the real-valued entropy term functions of
graph_blockmodel_util.hh (`entries_dS`, `vterm`, `vterm_exact`,
`eterm_dense`) and the partition-statistics deltas
(`get_delta_partition_dl`, `get_delta_deg_dl`, `get_delta_edges_dl`),
none of which are part of the sources.  They are abstracted as
function-valued parameters: the claims under verification depend only
on the control structure around them, so every theorem below holds for
all instantiations.  (`delta_edges_dl` absorbs the `actual_B` total
active block count obtained from the partition statistics.) -/
structure TermFns where
  entries_dS_exact : (ℕ → ℕ → ℤ) → List (ℕ × ℕ × ℤ) → ℚ
  entries_dS : (ℕ → ℕ → ℤ) → List (ℕ × ℕ × ℤ) → ℚ
  vterm_exact : ℤ → ℤ → ℤ → ℚ
  vterm : ℤ → ℤ → ℤ → ℚ
  eterm_dense : ℕ → ℕ → ℤ → ℤ → ℤ → Bool → ℚ
  delta_partition_dl : ℕ → ℕ → ℕ → ℚ
  delta_deg_dl : ℕ → ℕ → ℕ → ℚ
  delta_edges_dl : ℕ → ℕ → ℕ → ℚ

/-- `BlockState::virtual_move_sparse<exact>(v, r, nr, m_entries)`:
edge-term delta over the affected block pairs plus the vertex-term
differences at `r` and `nr` (directed instantiation). -/
def virtual_move_sparse (s : BState) (fns : TermFns) (ex : Bool) (v r nr : ℕ) : ℚ :=
  if r = nr then 0
  else
    let entries := get_move_entries s v r nr (fun _ => false)
    let dS0 := if ex then fns.entries_dS_exact s.mrs entries
      else fns.entries_dS s.mrs entries
    let kout := out_degree s v
    let kin := in_degree s v
    let dwr := s.vweight v
    let dwnr := if r = null_group ∧ dwr = 0 then 1 else dwr
    let vt : ℤ → ℤ → ℤ → ℚ := fun a c w =>
      if ex then fns.vterm_exact a c w else fns.vterm a c w
    let dS1 := dS0 + (if r ≠ null_group then
        vt (s.mrp r - kout) (s.mrm r - kin) (s.wr r - dwr)
          - vt (s.mrp r) (s.mrm r) (s.wr r)
      else 0)
    dS1 + (if nr ≠ null_group then
        vt (s.mrp nr + kout) (s.mrm nr + kin) (s.wr nr + dwnr)
          - vt (s.mrp nr) (s.mrm nr) (s.wr nr)
      else 0)

/-- `BlockState::virtual_move_dense(v, r, nr, multigraph)` (directed
instantiation): throws `GraphException` under degree correction,
otherwise recomputes the dense edge terms of every block against both
`r` and `nr` before and after the move.  The loop below transcribes the
directed branch of the source, with `t` for the loop variable `s`. -/
def virtual_move_dense (s : BState) (fns : TermFns) (v r nr : ℕ)
    (multigraph : Bool) : Except Exc ℚ :=
  if s.deg_corr = true then
    .error (.graphException "Dense entropy for degree corrected model not implemented!")
  else if r = nr then .ok 0
  else
    let deltap0 : ℕ → ℤ := fun t =>
      (s.edges.filterMap fun e =>
        if e.1 = v ∧ e.2.1 ≠ v ∧ s.b e.2.1 = t then some e.2.2 else none).sum
    let deltal0 : ℤ :=
      (s.edges.filterMap fun e =>
        if e.1 = v ∧ e.2.1 = v then some e.2.2 else none).sum
    let deltam0 : ℕ → ℤ := fun t =>
      (s.edges.filterMap fun e =>
        if e.2.1 = v ∧ e.1 ≠ v ∧ s.b e.1 = t then some e.2.2 else none).sum
    let dwr := s.vweight v
    let dwnr := if r = null_group ∧ dwr = 0 then 1 else dwr
    let deltap : ℕ → ℤ := fun t => if nr = null_group then 0 else deltap0 t
    let deltam : ℕ → ℤ := fun t => if nr = null_group then 0 else deltam0 t
    let deltal : ℤ := if nr = null_group then 0 else deltal0
    let et : ℕ → ℕ → ℤ → ℤ → ℤ → ℚ := fun p q m w1 w2 =>
      fns.eterm_dense p q m w1 w2 multigraph
    let SiSf := (List.range s.B).foldl (fun (acc : ℚ × ℚ) t =>
      let ers := if r ≠ null_group then s.mrs r t else 0
      let enrs := if nr ≠ null_group then s.mrs nr t else 0
      let esr := if r ≠ null_group then s.mrs t r else 0
      let esnr := if nr ≠ null_group then s.mrs t nr else 0
      let acc1 : ℚ × ℚ :=
        if t ≠ nr ∧ t ≠ r then
          (acc.1
            + (if r ≠ null_group then
                et r t ers (s.wr r) (s.wr t) + et t r esr (s.wr t) (s.wr r)
              else 0)
            + (if nr ≠ null_group then
                et nr t enrs (s.wr nr) (s.wr t) + et t nr esnr (s.wr t) (s.wr nr)
              else 0),
           acc.2
            + (if r ≠ null_group then
                et r t (ers - deltap t) (s.wr r - dwr) (s.wr t)
                  + et t r (esr - deltam t) (s.wr t) (s.wr r - dwr)
              else 0)
            + (if nr ≠ null_group then
                et nr t (enrs + deltap t) (s.wr nr + dwnr) (s.wr t)
                  + et t nr (esnr + deltam t) (s.wr t) (s.wr nr + dwnr)
              else 0))
        else acc
      let acc2 : ℚ × ℚ :=
        if t = r then
          (acc1.1 + et r r ers (s.wr r) (s.wr r)
            + (if nr ≠ null_group then et r nr esnr (s.wr r) (s.wr nr) else 0),
           acc1.2
            + et r r (ers - deltap r - deltam r - deltal)
                (s.wr r - dwr) (s.wr r - dwr)
            + (if nr ≠ null_group then
                et r nr (esnr - deltap nr + deltam r)
                  (s.wr r - dwr) (s.wr nr + dwnr)
              else 0))
        else acc1
      let acc3 : ℚ × ℚ :=
        if t = nr then
          (acc2.1 + et nr nr esnr (s.wr nr) (s.wr nr)
            + (if r ≠ null_group then et nr r esr (s.wr nr) (s.wr r) else 0),
           acc2.2
            + et nr nr (esnr + deltap nr + deltam nr + deltal)
                (s.wr nr + dwnr) (s.wr nr + dwnr)
            + (if r ≠ null_group then
                et nr r (esr + deltap r - deltam nr)
                  (s.wr nr + dwnr) (s.wr r - dwr)
              else 0))
        else acc2
      acc3) (0, 0)
    .ok (SiSf.2 - SiSf.1)

/-- `BlockState::dense_entropy(multigraph)`: throws `GraphException`
under degree correction; otherwise sums the dense edge term over the
block-graph edges (the block pairs with nonzero `mrs`). -/
def dense_entropy (s : BState) (fns : TermFns) (multigraph : Bool) : Except Exc ℚ :=
  if s.deg_corr = true then
    .error (.graphException "Dense entropy for degree corrected model not implemented!")
  else
    .ok (((List.range s.B).map fun p =>
      (((List.range s.B).map fun q =>
        if s.mrs p q ≠ 0 then
          fns.eterm_dense p q (s.mrs p q) (s.wr p) (s.wr q) multigraph
        else 0).sum)).sum)

/-- `BlockState::virtual_move(v, r, nr, ea)`: the signed
description-length delta of moving `v` from `r` to `nr` without
committing any mutation (the state is only read).  Early returns: `0`
when `r == nr`; `+infinity` (`⊤`) when both blocks are real and
`allow_move` forbids the move.  Then the adjacency delta (dense or
sparse), the structural description-length deltas, and — when a coupled
state is attached and `v` carries weight — the parent-level recursive
deltas, which the source adds only when *exactly one* of the
vacate-`r` / occupy-`nr` conditions holds (`if (r_vacate !=
nr_occupy)`).  `cvm r' s' t'` models
`_coupled_state->virtual_move(r', s', t', _coupled_entropy_args)`. -/
def virtual_move (s : BState) (fns : TermFns) (cvm : ℕ → ℕ → ℕ → ℚ)
    (v r nr : ℕ) (ea : EntropyArgs) : Except Exc (WithTop ℚ) :=
  if r = nr then .ok 0
  else if r ≠ null_group ∧ nr ≠ null_group ∧ s.allow_move r nr true = false then
    .ok ⊤
  else do
    let dS0 : ℚ ←
      if ea.adjacency = true then
        if ea.dense = true then virtual_move_dense s fns v r nr ea.multigraph
        else .ok (virtual_move_sparse s fns ea.exact v r nr)
      else .ok 0
    let dS1 := dS0
      + (if ea.partition_dl = true then fns.delta_partition_dl v r nr else 0)
      + (if s.deg_corr = true ∧ ea.degree_dl = true then fns.delta_deg_dl v r nr else 0)
      + (if ea.edges_dl = true then fns.delta_edges_dl v r nr else 0)
    let dS2 :=
      if s.coupled = true ∧ 0 < s.vweight v then
        let r_vacate : Bool := decide (r ≠ null_group ∧ s.wr r = s.vweight v)
        let nr_occupy : Bool := decide (nr ≠ null_group ∧ s.wr nr = 0)
        if r_vacate ≠ nr_occupy then
          dS1 + (if r_vacate then cvm r (s.bclabel r) null_group else 0)
              + (if nr_occupy then cvm nr null_group (s.bclabel r) else 0)
        else dS1
      else dS1
    .ok (dS2 : WithTop ℚ)

/-- The at-the-time block-occupancy count used by `sample_block` and
`get_move_prob`: `candidate_blocks.size() - 1` when no empty block is
left (the `null_group` sentinel is excluded), `candidate_blocks.size()`
otherwise (the sentinel then stands for "spawn an empty block"). -/
def Bcount (s : BState) : ℕ :=
  if s.empty_blocks.isEmpty then s.candidate_blocks.length - 1
  else s.candidate_blocks.length

/-- The incident non-self-loop edges of `v` as traversed by
`get_move_prob` (out-edges skipping `target == v`, then in-edges
skipping `source == v`), as (other endpoint, edge weight) pairs. -/
def incident_edges (s : BState) (v : ℕ) : List (ℕ × ℤ) :=
  (s.edges.filterMap fun e =>
    if e.1 = v ∧ e.2.1 ≠ v then some (e.2.1, e.2.2) else none) ++
  (s.edges.filterMap fun e =>
    if e.2.1 = v ∧ e.1 ≠ v then some (e.1, e.2.2) else none)

/-- The total edge weight `w` accumulated by `get_move_prob` over the
incident non-self-loop edges of `v`. -/
def incident_weight (s : BState) (v : ℕ) : ℤ :=
  ((incident_edges s v).map Prod.snd).sum

/-- `BlockState::get_move_prob(v, r, s, c, reverse)` (directed
instantiation, with `sb` for the target block argument `s`): the exact
forward / reverse proposal probability density, summing over `v`'s
incident non-self-loop edges; when the total incident edge weight is
zero it degenerates to `1/B` over the candidate count. -/
def get_move_prob (s : BState) (v r sb : ℕ) (c : ℚ) (reverse : Bool) : ℚ :=
  let B : ℕ := Bcount s
  let kout := out_degree s v
  let kin := in_degree s v
  let entries := get_move_entries s v (s.b v) (if reverse then r else sb) (fun _ => false)
  let pw : ℚ × ℤ := (incident_edges s v).foldl (fun (pw : ℚ × ℤ) (ue : ℕ × ℤ) =>
    let t := if ue.1 = v then r else s.b ue.1
    let ew : ℤ := ue.2
    let mts0 := s.mrs t sb
    let mtp0 := s.mrp t
    let mst0 := s.mrs sb t
    let mtm0 := s.mrm t
    let mm : ℤ × ℤ × ℤ × ℤ :=
      if reverse = true then
        let dts := entries_delta entries t sb
        let dst := entries_delta entries sb t
        let mm1 : ℤ × ℤ := if t = sb then (mtp0 - kout, mtm0 - kin) else (mtp0, mtm0)
        let mm2 : ℤ × ℤ := if t = r then (mm1.1 + kout, mm1.2 + kin) else mm1
        (mts0 + dts, mst0 + dst, mm2.1, mm2.2)
      else (mts0, mst0, mtp0, mtm0)
    let p' : ℚ := pw.1 + (ew : ℚ) * (((mm.1 : ℚ) + (mm.2.1 : ℚ) + c) /
        ((mm.2.2.1 : ℚ) + (mm.2.2.2 : ℚ) + c * (B : ℚ)))
    let w' : ℤ := pw.2 + ew
    (p', w')) (0, 0)
  if 0 < pw.2 then pw.1 / (pw.2 : ℚ) else 1 / (B : ℚ)

/-- The per-iteration oracle of the multicanonical sweep: the outcome of
the underlying random vertex draw (`skip` models `node_weight(v) == 0`),
the entropy delta and acceptance bias returned by `virtual_move_dS`, and
the uniform variate drawn for the Metropolis test. -/
structure MCIter where
  skip : Bool
  dS : ℚ
  dS_bias : ℚ
  u : ℚ

/-- The observable state of `multicanonical_sweep`
(multicanonical_loop.hh): entropy window `[S_min, S_max)` with `M`
bins, visit histogram, density-of-states estimate, learning rate `f`
with its `1/t` refinement clock, early-exit target bin, the (abstract)
bin-index function of the underlying state, the running entropy `S` and
the accepted-move count. -/
structure MCState where
  S_min : ℚ
  S_max : ℚ
  M : ℕ
  hist : ℕ → ℕ
  dens : ℕ → ℚ
  f : ℚ
  time : ℚ
  refine : Bool
  target_bin : ℤ
  get_bin : ℚ → ℕ
  S : ℚ
  nmoves : ℕ

/-- One loop iteration of `multicanonical_sweep`, at current bin `i`:
`skip` models the `continue` on zero-weight vertices; a proposed move
whose resulting entropy leaves `[S_min, S_max)` is rejected outright;
otherwise the flat-histogram Metropolis rule applies (with `expf`
standing for `std::exp`).  Returns the new state, the new current bin
and whether the target-bin early exit fires.  Regardless of acceptance,
the visit histogram and density estimate of the current bin are bumped
and the `1/t` refinement shrinks `f`. -/
def mc_iteration (expf : ℚ → ℚ) (st : MCState) (i : ℕ) (it : MCIter) :
    MCState × ℕ × Bool :=
  if it.skip = true then (st, i, false)
  else
    let nS := st.S + it.dS
    let j := st.get_bin nS
    let a := (st.dens i - st.dens j) + it.dS_bias
    let accept : Bool :=
      if nS < st.S_min ∨ st.S_max ≤ nS then false
      else if 0 < a then true
      else decide (it.u < expf a)
    let S' := if accept then nS else st.S
    let i' := if accept then j else i
    let nm := if accept then st.nmoves + 1 else st.nmoves
    let st1 := { st with
                 S := S', nmoves := nm,
                 hist := Function.update st.hist i' (st.hist i' + 1),
                 dens := Function.update st.dens i' (st.dens i' + st.f),
                 time := st.time + 1 / (st.M : ℚ) }
    let st2 := if st1.refine = true then
        { st1 with f := st1.f * ((st1.time - 1 / (st1.M : ℚ)) / st1.time) }
      else st1
    (st2, i', decide ((i' : ℤ) = st.target_bin))

/-- The iteration loop of `multicanonical_sweep`, threading the current
bin; the oracle list plays the role of the `niter` iteration budget. -/
def mc_loop (expf : ℚ → ℚ) : List MCIter → MCState → ℕ → MCState
  | [], st, _ => st
  | it :: rest, st, i =>
    let r := mc_iteration expf st i it
    if r.2.2 = true then r.1 else mc_loop expf rest r.1 r.2.1

/-- `multicanonical_sweep(state, rng)`: throws `ValueException` when the
entering entropy lies outside `[S_min, S_max)`, otherwise runs the
sweep loop from the bin of the current entropy. -/
def multicanonical_sweep (expf : ℚ → ℚ) (its : List MCIter) (st : MCState) :
    Except Exc MCState :=
  if st.S < st.S_min ∨ st.S_max ≤ st.S then
    .error (.valueException "current state lies outside the allowed entropy range")
  else .ok (mc_loop expf its st (st.get_bin st.S))

/-- The consistency invariant of a partition state.  `A` is the set of
currently inserted vertices (every vertex for a freshly constructed
state; `remove_vertex` takes a vertex out, `add_vertex` puts it back —
the source does not store this set, it is the specification-level
bookkeeping needed to state weight conservation).  The components are
the invariants stated in the data-model section of the specification
together with the structural facts the constructor establishes about
the block pools. -/
structure Consistent (s : BState) (A : Finset ℕ) : Prop where
  hB : s.B ≤ null_group
  hb : ∀ u, s.b u < s.B
  hvw : ∀ u, 0 ≤ s.vweight u
  hwr : ∀ r, s.wr r = ∑ u ∈ A.filter (fun u => s.b u = r), s.vweight u
  hmrp : ∀ p, s.mrp p = ∑ q ∈ Finset.range s.B, s.mrs p q
  hemp : ∀ r, r < s.B → (r ∈ s.empty_blocks ↔ s.wr r = 0)
  hcand : ∀ r, r < s.B → (r ∈ s.candidate_blocks ↔ 0 < s.wr r)
  hhead : s.candidate_blocks.head? = some null_group
  hndE : s.empty_blocks.Nodup
  hndC : s.candidate_blocks.Nodup

/-- The partition states reachable from a consistent initial state (all
vertices inserted) through the mutation operations of `BlockState`:
single and bulk insertion, removal and moves.  The side conditions are
the implicit preconditions under which the source operations are
invoked (a vertex is inserted only while absent and removed only while
present, target blocks are real blocks). -/
inductive Reach : BState → Finset ℕ → Prop where
  | init (s : BState) :
      Consistent s (Finset.range s.n) → Reach s (Finset.range s.n)
  | add (s : BState) (A : Finset ℕ) (v r : ℕ) :
      Reach s A → v ∉ A → r < s.B → Reach (add_vertex v r s) (insert v A)
  | remove (s : BState) (A : Finset ℕ) (v : ℕ) :
      Reach s A → v ∈ A → Reach (remove_vertex v (s.b v) s) (A.erase v)
  | move (s s' : BState) (A : Finset ℕ) (v nr : ℕ) :
      Reach s A → v ∈ A → nr < s.B →
      move_vertex v (s.b v) nr s = .ok s' → Reach s' A
  | addBulk (s s' : BState) (A : Finset ℕ) (vs rs : List ℕ) :
      Reach s A → vs.Nodup → (∀ v ∈ vs, v ∉ A) → (∀ r ∈ rs, r < s.B) →
      add_vertices vs rs s = .ok s' → Reach s' (A ∪ vs.toFinset)
  | removeBulk (s : BState) (A : Finset ℕ) (vs : List ℕ) :
      Reach s A → vs.Nodup → (∀ v ∈ vs, v ∈ A) →
      Reach (remove_vertices vs s) (A \ vs.toFinset)
  | moveBulk (s s' : BState) (A : Finset ℕ) (vs nrs : List ℕ) :
      Reach s A → (∀ v ∈ vs, v ∈ A) → (∀ r ∈ nrs, r < s.B) →
      move_vertices vs nrs s = .ok s' → Reach s' A

/-- All-zero instantiation of the abstract entropy terms (used to
evaluate the control-flow theorems on concrete inputs). -/
def fns0 : TermFns where
  entries_dS_exact := fun _ _ => 0
  entries_dS := fun _ _ => 0
  vterm_exact := fun _ _ _ => 0
  vterm := fun _ _ _ => 0
  eterm_dense := fun _ _ _ _ _ _ => 0
  delta_partition_dl := fun _ _ _ => 0
  delta_deg_dl := fun _ _ _ => 0
  delta_edges_dl := fun _ _ _ => 0

/-- Entropy configuration with every term switched off. -/
def eaOff : EntropyArgs where
  adjacency := false
  dense := false
  multigraph := false
  exact := false
  partition_dl := false
  degree_dl := false
  edges_dl := false
  recs := false

/-- A consistent one-vertex, one-block, edgeless state (vertex 0 of
weight 1 sits in block 0). -/
def sW1 : BState where
  n := 1
  B := 1
  edges := []
  b := fun _ => 0
  bclabel := fun _ => 0
  vweight := fun _ => 1
  wr := fun r => if r = 0 then 1 else 0
  mrs := fun _ _ => 0
  mrp := fun _ => 0
  mrm := fun _ => 0
  empty_blocks := []
  candidate_blocks := [null_group, 0]
  deg_corr := false
  coupled := false
  events := []

/-- A consistent two-vertex, two-block, edgeless state with distinct
block labels (`bclabel r = r`), each block holding one unit-weight
vertex. -/
def sW2 : BState where
  n := 2
  B := 2
  edges := []
  b := fun v => if v = 0 then 0 else 1
  bclabel := fun r => r
  vweight := fun _ => 1
  wr := fun r => if r < 2 then 1 else 0
  mrs := fun _ _ => 0
  mrp := fun _ => 0
  mrm := fun _ => 0
  empty_blocks := []
  candidate_blocks := [null_group, 0, 1]
  deg_corr := false
  coupled := false
  events := []

/-- Like `sW2` but with a coupled state attached, vertex 0 alone in
block 0 and block 1 empty: moving vertex 0 from block 0 to block 1 both
vacates `r = 0` and occupies `nr = 1`. -/
def sW2c : BState where
  n := 2
  B := 2
  edges := []
  b := fun _ => 0
  bclabel := fun _ => 0
  vweight := fun v => if v = 0 then 1 else 0
  wr := fun r => if r = 0 then 1 else 0
  mrs := fun _ _ => 0
  mrp := fun _ => 0
  mrm := fun _ => 0
  empty_blocks := [1]
  candidate_blocks := [null_group, 0]
  deg_corr := false
  coupled := true
  events := []

/-- `sW2` with degree correction switched on (for the dense-entropy
configuration error). -/
def sW2d : BState :=
  { sW2 with deg_corr := true }

/-- Like `sW2c`, but block 1 already holds weight 5: moving vertex 0 to
block 1 vacates `r = 0` without occupying `nr = 1`. -/
def sW2v : BState :=
  { sW2c with wr := fun r => if r = 0 then 1 else 5,
              empty_blocks := [],
              candidate_blocks := [null_group, 0, 1] }

/-- The concrete 4-vertex path scenario of the specification: undirected
edges {(0,1), (1,2), (2,3)} of weight 1 (represented by their symmetric
directed double cover), two blocks, unit vertex weights, before any
vertex is inserted (all block counters zero, both blocks empty). -/
def st6_init : BState where
  n := 4
  B := 2
  edges := [(0, 1, 1), (1, 0, 1), (1, 2, 1), (2, 1, 1), (2, 3, 1), (3, 2, 1)]
  b := fun _ => 0
  bclabel := fun _ => 0
  vweight := fun _ => 1
  wr := fun _ => 0
  mrs := fun _ _ => 0
  mrp := fun _ => 0
  mrm := fun _ => 0
  empty_blocks := [0, 1]
  candidate_blocks := [null_group]
  deg_corr := false
  coupled := false
  events := []

/-- The scenario state after the `add_vertex` bookkeeping of the
initial partition `b = [0, 0, 1, 1]` (seeded through the batch
`add_vertices`, whose combined edge filter adds each batch-internal
edge exactly once). -/
def st6 : BState :=
  (add_vertices [0, 1, 2, 3] [0, 0, 1, 1] st6_init).toOption.getD st6_init

/-- The scenario state after `move_vertex(1, 0, 1)`. -/
def st6m : BState :=
  move_propagate 1 0 1 (add_vertex 1 1 (remove_vertex 1 0 st6))

/-- A one-iteration oracle and a two-bin multicanonical state for
evaluating the sweep theorem. -/
def st9 : MCState where
  S_min := 0
  S_max := 2
  M := 2
  hist := fun _ => 0
  dens := fun _ => 0
  f := 1
  time := 1
  refine := true
  target_bin := -1
  get_bin := fun x => if x < 1 then 0 else 1
  S := 0
  nmoves := 0

/-- One proposed move raising the entropy by 1/2 with no bias. -/
def its9 : List MCIter :=
  [{ skip := false, dS := 1/2, dS_bias := 0, u := 0 }]

/-- The conclusion of the multicanonical-boundedness claim for a sweep
over the oracle `its` from state `st`: the sweep succeeds, the running
entropy never leaves `[S_min, S_max)`, the histogram counts are
pointwise non-decreasing, and every iteration that reaches the
accept/reject step increments the post-decision current bin's count by
exactly one, regardless of acceptance. -/
def MCSweepClaim (expf : ℚ → ℚ) (its : List MCIter) (st : MCState) : Prop :=
  (∃ st', multicanonical_sweep expf its st = .ok st' ∧
     st.S_min ≤ st'.S ∧ st'.S < st.S_max ∧ ∀ k, st.hist k ≤ st'.hist k) ∧
  (∀ (st0 : MCState) (i : ℕ) (it : MCIter), it.skip = false →
     (mc_iteration expf st0 i it).1.hist
       = Function.update st0.hist (mc_iteration expf st0 i it).2.1
           (st0.hist (mc_iteration expf st0 i it).2.1 + 1))

/-! ## Frame lemmas: which fields each operation leaves untouched -/

@[simp] theorem entries_op_B (l : List (ℕ × ℕ × ℤ)) (s : BState) :
    (entries_op s l).B = s.B := by
  induction l generalizing s with
  | nil => rfl
  | cons e t ih => exact ih (entry_apply s e)

@[simp] theorem entries_op_b (l : List (ℕ × ℕ × ℤ)) (s : BState) :
    (entries_op s l).b = s.b := by
  induction l generalizing s with
  | nil => rfl
  | cons e t ih => exact ih (entry_apply s e)

@[simp] theorem entries_op_vweight (l : List (ℕ × ℕ × ℤ)) (s : BState) :
    (entries_op s l).vweight = s.vweight := by
  induction l generalizing s with
  | nil => rfl
  | cons e t ih => exact ih (entry_apply s e)

@[simp] theorem entries_op_wr (l : List (ℕ × ℕ × ℤ)) (s : BState) :
    (entries_op s l).wr = s.wr := by
  induction l generalizing s with
  | nil => rfl
  | cons e t ih => exact ih (entry_apply s e)

@[simp] theorem entries_op_empty_blocks (l : List (ℕ × ℕ × ℤ)) (s : BState) :
    (entries_op s l).empty_blocks = s.empty_blocks := by
  induction l generalizing s with
  | nil => rfl
  | cons e t ih => exact ih (entry_apply s e)

@[simp] theorem entries_op_candidate_blocks (l : List (ℕ × ℕ × ℤ)) (s : BState) :
    (entries_op s l).candidate_blocks = s.candidate_blocks := by
  induction l generalizing s with
  | nil => rfl
  | cons e t ih => exact ih (entry_apply s e)

@[simp] theorem add_partition_node_B (v r : ℕ) (s : BState) :
    (add_partition_node v r s).B = s.B := by
  dsimp only [add_partition_node]; split <;> rfl

@[simp] theorem add_partition_node_b (v r : ℕ) (s : BState) :
    (add_partition_node v r s).b = s.b := by
  dsimp only [add_partition_node]; split <;> rfl

@[simp] theorem add_partition_node_vweight (v r : ℕ) (s : BState) :
    (add_partition_node v r s).vweight = s.vweight := by
  dsimp only [add_partition_node]; split <;> rfl

@[simp] theorem remove_partition_node_B (v r : ℕ) (s : BState) :
    (remove_partition_node v r s).B = s.B := by
  dsimp only [remove_partition_node]; split <;> rfl

@[simp] theorem remove_partition_node_b (v r : ℕ) (s : BState) :
    (remove_partition_node v r s).b = s.b := by
  dsimp only [remove_partition_node]; split <;> rfl

@[simp] theorem remove_partition_node_vweight (v r : ℕ) (s : BState) :
    (remove_partition_node v r s).vweight = s.vweight := by
  dsimp only [remove_partition_node]; split <;> rfl

@[simp] theorem modify_vertex_add_B (v r : ℕ) (flt : ℕ → Bool) (s : BState) :
    (modify_vertex_add v r flt s).B = s.B := by
  dsimp only [modify_vertex_add]; simp

@[simp] theorem modify_vertex_remove_B (v r : ℕ) (flt : ℕ → Bool) (s : BState) :
    (modify_vertex_remove v r flt s).B = s.B := by
  dsimp only [modify_vertex_remove]; simp

@[simp] theorem move_propagate_B (v r nr : ℕ) (s : BState) :
    (move_propagate v r nr s).B = s.B := by
  dsimp only [move_propagate]; split
  · split
    · split <;> rfl
    · split <;> rfl
  · rfl

/-- Transporting consistency along an equality of the relevant fields
(`bclabel` and `events` do not occur in the invariant). -/
theorem consistent_congr {s : BState} {A : Finset ℕ} (hc : Consistent s A)
    (s' : BState) (h1 : s'.B = s.B) (h2 : s'.b = s.b)
    (h3 : s'.vweight = s.vweight) (h4 : s'.wr = s.wr) (h5 : s'.mrp = s.mrp)
    (h6 : s'.mrs = s.mrs) (h7 : s'.empty_blocks = s.empty_blocks)
    (h8 : s'.candidate_blocks = s.candidate_blocks) : Consistent s' A := by
  refine ⟨?_, ?_, ?_, ?_, ?_, ?_, ?_, ?_, ?_, ?_⟩
  · rw [h1]; exact hc.hB
  · rw [h2, h1]; exact hc.hb
  · rw [h3]; exact hc.hvw
  · rw [h4, h2, h3]; exact hc.hwr
  · rw [h5, h1, h6]; exact hc.hmrp
  · rw [h1, h7, h4]; exact hc.hemp
  · rw [h1, h8, h4]; exact hc.hcand
  · rw [h8]; exact hc.hhead
  · rw [h7]; exact hc.hndE
  · rw [h8]; exact hc.hndC

/-- `entries_op` preserves consistency as long as every entry's column
block is a real block (so that the `mrp` row-sum invariant tracks the
`mrs` updates inside `range B`). -/
theorem consistent_entries_op {s : BState} {A : Finset ℕ} (hc : Consistent s A)
    (l : List (ℕ × ℕ × ℤ)) (hl : ∀ e ∈ l, e.2.1 < s.B) :
    Consistent (entries_op s l) A := by
  induction l generalizing s with
  | nil => exact hc
  | cons e t ih =>
    refine ih (s := entry_apply s e) ?_ ?_
    · obtain ⟨p0, q0, d⟩ := e
      have hq0 : q0 < s.B := hl (p0, q0, d) (List.mem_cons_self _ _)
      refine ⟨hc.hB, hc.hb, hc.hvw, hc.hwr, ?_, hc.hemp, hc.hcand, hc.hhead,
        hc.hndE, hc.hndC⟩
      intro p
      show Function.update s.mrp p0 (s.mrp p0 + d) p
        = ∑ q ∈ Finset.range s.B,
            (if p = p0 ∧ q = q0 then s.mrs p q + d else s.mrs p q)
      by_cases hp : p = p0
      · subst hp
        rw [Function.update_same]
        have : ∀ q ∈ Finset.range s.B,
            (if p = p ∧ q = q0 then s.mrs p q + d else s.mrs p q)
              = s.mrs p q + (if q = q0 then d else 0) := by
          intro q _
          by_cases hq : q = q0 <;> simp [hq]
        rw [Finset.sum_congr rfl this, Finset.sum_add_distrib,
          Finset.sum_ite_eq' (Finset.range s.B) q0 (fun _ => d),
          if_pos (Finset.mem_range.2 hq0), hc.hmrp p]
      · have : ∀ q ∈ Finset.range s.B,
            (if p = p0 ∧ q = q0 then s.mrs p q + d else s.mrs p q) = s.mrs p q := by
          intro q _
          simp [hp]
        rw [Function.update_noteq hp, Finset.sum_congr rfl this, hc.hmrp p]
    · intro e' he'
      exact hl e' (List.mem_cons_of_mem _ he')

/-! ## Pool-list helpers -/

theorem mem_add_element {l : List ℕ} {t r : ℕ} :
    t ∈ add_element l r ↔ t ∈ l ∨ t = r := by
  simp [add_element]

theorem mem_remove_element_of_ne {l : List ℕ} {t r : ℕ} (h : t ≠ r) :
    t ∈ remove_element l r ↔ t ∈ l :=
  List.mem_erase_of_ne h

theorem not_mem_remove_element_self {l : List ℕ} {r : ℕ} (h : l.Nodup) :
    r ∉ remove_element l r :=
  h.not_mem_erase

theorem nodup_add_element {l : List ℕ} {r : ℕ} (h : l.Nodup) (hr : r ∉ l) :
    (add_element l r).Nodup := by
  simp [add_element, List.nodup_append, h, hr]

theorem nodup_remove_element {l : List ℕ} {r : ℕ} (h : l.Nodup) :
    (remove_element l r).Nodup :=
  h.erase r

theorem head_add_element {l : List ℕ} {a r : ℕ} (h : l.head? = some a) :
    (add_element l r).head? = some a := by
  cases l with
  | nil => simp at h
  | cons x t => simpa [add_element] using h

theorem head_remove_element {l : List ℕ} {a r : ℕ} (h : l.head? = some a)
    (hne : a ≠ r) : (remove_element l r).head? = some a := by
  cases l with
  | nil => simp at h
  | cons x t =>
    have hx : x = a := by simpa using h
    subst hx
    simp [remove_element, List.erase_cons, hne]

/-! ## Consistency preservation of the elementary mutations -/

theorem consistent_set_b {s : BState} {A : Finset ℕ} (hc : Consistent s A)
    (v r : ℕ) (hv : v ∉ A) (hr : r < s.B) :
    Consistent { s with b := Function.update s.b v r } A := by
  refine ⟨hc.hB, ?_, hc.hvw, ?_, hc.hmrp, hc.hemp, hc.hcand, hc.hhead,
    hc.hndE, hc.hndC⟩
  · intro u
    show Function.update s.b v r u < s.B
    by_cases hu : u = v
    · subst hu; rw [Function.update_same]; exact hr
    · rw [Function.update_noteq hu]; exact hc.hb u
  · intro t
    show s.wr t = ∑ u ∈ A.filter (fun u => Function.update s.b v r u = t), s.vweight u
    rw [hc.hwr t]
    refine Finset.sum_congr ?_ (fun _ _ => rfl)
    refine Finset.filter_congr ?_
    intro u hu
    have huv : u ≠ v := fun h => hv (h ▸ hu)
    rw [Function.update_noteq huv]

theorem consistent_add_partition_node {s : BState} {A : Finset ℕ} {v r : ℕ}
    (hc : Consistent s A) (hv : v ∉ A) (hr : r < s.B) (hbv : s.b v = r) :
    Consistent (add_partition_node v r s) (insert v A) := by
  have hwrn : ∀ t, 0 ≤ s.wr t := fun t => by
    rw [hc.hwr t]; exact Finset.sum_nonneg (fun u _ => hc.hvw u)
  have hwr' : ∀ t, Function.update s.wr r (s.wr r + s.vweight v) t
      = ∑ u ∈ (insert v A).filter (fun u => s.b u = t), s.vweight u := by
    intro t
    by_cases ht : t = r
    · subst ht
      rw [Function.update_same, Finset.filter_insert, if_pos hbv,
        Finset.sum_insert (fun hmem => hv (Finset.mem_of_mem_filter v hmem)),
        ← hc.hwr t, add_comm]
    · rw [Function.update_noteq ht, Finset.filter_insert,
        if_neg (fun h : s.b v = t => ht (by rw [← hbv, h])), hc.hwr t]
  dsimp only [add_partition_node]
  by_cases hfire : 0 < s.vweight v ∧ s.wr r = 0
  · rw [if_pos (show 0 < s.vweight v ∧
        Function.update s.wr r (s.wr r + s.vweight v) r = s.vweight v by
      rw [Function.update_same, hfire.2, zero_add]; exact ⟨hfire.1, rfl⟩)]
    refine ⟨hc.hB, hc.hb, hc.hvw, hwr', hc.hmrp, ?_, ?_, ?_, ?_, ?_⟩
    · intro t ht
      show t ∈ remove_element s.empty_blocks r
        ↔ Function.update s.wr r (s.wr r + s.vweight v) t = 0
      by_cases htr : t = r
      · subst htr
        refine iff_of_false (not_mem_remove_element_self hc.hndE) ?_
        rw [Function.update_same, hfire.2, zero_add]
        exact fun h => absurd (h ▸ hfire.1) (lt_irrefl 0)
      · rw [mem_remove_element_of_ne htr, Function.update_noteq htr]
        exact hc.hemp t ht
    · intro t ht
      show t ∈ add_element s.candidate_blocks r
        ↔ 0 < Function.update s.wr r (s.wr r + s.vweight v) t
      by_cases htr : t = r
      · subst htr
        refine iff_of_true (mem_add_element.2 (Or.inr rfl)) ?_
        rw [Function.update_same, hfire.2, zero_add]; exact hfire.1
      · rw [mem_add_element, Function.update_noteq htr]
        simp only [htr, or_false]
        exact hc.hcand t ht
    · exact head_add_element hc.hhead
    · exact nodup_remove_element hc.hndE
    · refine nodup_add_element hc.hndC (fun hmem => ?_)
      have := (hc.hcand r hr).1 hmem
      rw [hfire.2] at this
      exact absurd this (lt_irrefl 0)
  · rw [if_neg (fun hcnd : 0 < s.vweight v ∧
        Function.update s.wr r (s.wr r + s.vweight v) r = s.vweight v =>
      hfire ⟨hcnd.1, by
        have h2 := hcnd.2
        rw [Function.update_same, add_left_eq_self] at h2
        exact h2⟩)]
    refine ⟨hc.hB, hc.hb, hc.hvw, hwr', hc.hmrp, ?_, ?_, hc.hhead,
      hc.hndE, hc.hndC⟩
    · intro t ht
      show t ∈ s.empty_blocks ↔ Function.update s.wr r (s.wr r + s.vweight v) t = 0
      by_cases htr : t = r
      · subst htr
        rw [Function.update_same]
        rcases (hc.hvw v).lt_or_eq with hvw | hvw
        · have hwrr : s.wr t ≠ 0 := fun h => hfire ⟨hvw, h⟩
          have hwrpos : 0 < s.wr t := lt_of_le_of_ne (hwrn t) (Ne.symm hwrr)
          refine iff_of_false (fun h => hwrr ((hc.hemp t ht).1 h)) ?_
          have : 0 < s.wr t + s.vweight v := by positivity
          exact fun h => absurd (h ▸ this) (lt_irrefl 0)
        · rw [← hvw, add_zero]; exact hc.hemp t ht
      · rw [Function.update_noteq htr]; exact hc.hemp t ht
    · intro t ht
      show t ∈ s.candidate_blocks ↔ 0 < Function.update s.wr r (s.wr r + s.vweight v) t
      by_cases htr : t = r
      · subst htr
        rw [Function.update_same]
        rcases (hc.hvw v).lt_or_eq with hvw | hvw
        · have hwrr : s.wr t ≠ 0 := fun h => hfire ⟨hvw, h⟩
          have hwrpos : 0 < s.wr t := lt_of_le_of_ne (hwrn t) (Ne.symm hwrr)
          refine iff_of_true ((hc.hcand t ht).2 hwrpos) (by positivity)
        · rw [← hvw, add_zero]; exact hc.hcand t ht
      · rw [Function.update_noteq htr]; exact hc.hcand t ht

theorem consistent_remove_partition_node {s : BState} {A : Finset ℕ} {v r : ℕ}
    (hc : Consistent s A) (hv : v ∈ A) (hbv : s.b v = r) :
    Consistent (remove_partition_node v r s) (A.erase v) := by
  have hr : r < s.B := hbv ▸ hc.hb v
  have hwrn : ∀ t, 0 ≤ s.wr t := fun t => by
    rw [hc.hwr t]; exact Finset.sum_nonneg (fun u _ => hc.hvw u)
  have hvmem : v ∈ A.filter (fun u => s.b u = r) := Finset.mem_filter.2 ⟨hv, hbv⟩
  have hge : s.vweight v ≤ s.wr r := by
    rw [hc.hwr r]; exact Finset.single_le_sum (fun u _ => hc.hvw u) hvmem
  have hwr' : ∀ t, Function.update s.wr r (s.wr r - s.vweight v) t
      = ∑ u ∈ (A.erase v).filter (fun u => s.b u = t), s.vweight u := by
    intro t
    by_cases ht : t = r
    · subst ht
      rw [Function.update_same, Finset.filter_erase,
        Finset.sum_erase_eq_sub hvmem, ← hc.hwr t]
    · rw [Function.update_noteq ht, Finset.filter_erase,
        Finset.erase_eq_of_not_mem
          (show v ∉ A.filter (fun u => s.b u = t) from fun hmem =>
            ht (hbv.symm.trans (Finset.mem_filter.1 hmem).2).symm),
        hc.hwr t]
  dsimp only [remove_partition_node]
  by_cases hfire : 0 < s.vweight v ∧ s.wr r = s.vweight v
  · rw [if_pos (show 0 < s.vweight v ∧
        Function.update s.wr r (s.wr r - s.vweight v) r = 0 by
      rw [Function.update_same, hfire.2, sub_self]; exact ⟨hfire.1, rfl⟩)]
    refine ⟨hc.hB, hc.hb, hc.hvw, hwr', hc.hmrp, ?_, ?_, ?_, ?_, ?_⟩
    · intro t ht
      show t ∈ add_element s.empty_blocks r
        ↔ Function.update s.wr r (s.wr r - s.vweight v) t = 0
      by_cases htr : t = r
      · subst htr
        refine iff_of_true (mem_add_element.2 (Or.inr rfl)) ?_
        rw [Function.update_same, hfire.2, sub_self]
      · rw [mem_add_element, Function.update_noteq htr]
        simp only [htr, or_false]
        exact hc.hemp t ht
    · intro t ht
      show t ∈ remove_element s.candidate_blocks r
        ↔ 0 < Function.update s.wr r (s.wr r - s.vweight v) t
      by_cases htr : t = r
      · subst htr
        refine iff_of_false (not_mem_remove_element_self hc.hndC) ?_
        rw [Function.update_same, hfire.2, sub_self]
        exact lt_irrefl 0
      · rw [mem_remove_element_of_ne htr, Function.update_noteq htr]
        exact hc.hcand t ht
    · exact head_remove_element hc.hhead (Nat.lt_of_lt_of_le hr hc.hB).ne'
    · refine nodup_add_element hc.hndE (fun hmem => ?_)
      have h0 := (hc.hemp r hr).1 hmem
      rw [hfire.2] at h0
      exact absurd (h0 ▸ hfire.1) (lt_irrefl 0)
    · exact nodup_remove_element hc.hndC
  · rw [if_neg (fun hcnd : 0 < s.vweight v ∧
        Function.update s.wr r (s.wr r - s.vweight v) r = 0 =>
      hfire ⟨hcnd.1, by
        have h2 := hcnd.2
        rw [Function.update_same, sub_eq_zero] at h2
        exact h2⟩)]
    refine ⟨hc.hB, hc.hb, hc.hvw, hwr', hc.hmrp, ?_, ?_, hc.hhead,
      hc.hndE, hc.hndC⟩
    · intro t ht
      show t ∈ s.empty_blocks ↔ Function.update s.wr r (s.wr r - s.vweight v) t = 0
      by_cases htr : t = r
      · subst htr
        rw [Function.update_same]
        rcases (hc.hvw v).lt_or_eq with hvw | hvw
        · have hne : s.wr t ≠ s.vweight v := fun h => hfire ⟨hvw, h⟩
          have hgt : s.vweight v < s.wr t := lt_of_le_of_ne hge (Ne.symm hne)
          refine iff_of_false ?_ ?_
          · intro h
            have h0 := (hc.hemp t ht).1 h
            rw [h0] at hgt
            exact absurd (hvw.trans hgt) (lt_irrefl 0)
          · intro h
            rw [sub_eq_zero] at h
            exact hne h
        · rw [← hvw, sub_zero]; exact hc.hemp t ht
      · rw [Function.update_noteq htr]; exact hc.hemp t ht
    · intro t ht
      show t ∈ s.candidate_blocks ↔ 0 < Function.update s.wr r (s.wr r - s.vweight v) t
      by_cases htr : t = r
      · subst htr
        rw [Function.update_same]
        rcases (hc.hvw v).lt_or_eq with hvw | hvw
        · have hne : s.wr t ≠ s.vweight v := fun h => hfire ⟨hvw, h⟩
          have hgt : s.vweight v < s.wr t := lt_of_le_of_ne hge (Ne.symm hne)
          exact iff_of_true ((hc.hcand t ht).2 (hvw.trans hgt)) (by linarith)
        · rw [← hvw, sub_zero]; exact hc.hcand t ht
      · rw [Function.update_noteq htr]; exact hc.hcand t ht

theorem move_entries_side_snd_lt {s : BState} {v bv : ℕ} {flt : ℕ → Bool}
    {sign : ℤ} (hb : ∀ u, s.b u < s.B) (hbv : bv < s.B) :
    ∀ e ∈ move_entries_side s v bv flt sign, e.2.1 < s.B := by
  intro e he
  rcases List.mem_append.1 he with h | h
  · rcases List.mem_filterMap.1 h with ⟨ie, _, heq⟩
    by_cases hcond : flt ie.1 = false ∧ ie.2.1 = v
    · rw [if_pos hcond] at heq
      cases heq
      show (if ie.2.2.1 = v then bv else s.b ie.2.2.1) < s.B
      split
      · exact hbv
      · exact hb _
    · rw [if_neg hcond] at heq
      exact Option.noConfusion heq
  · rcases List.mem_filterMap.1 h with ⟨ie, _, heq⟩
    by_cases hcond : flt ie.1 = false ∧ ie.2.2.1 = v ∧ ie.2.1 ≠ v
    · rw [if_pos hcond] at heq
      cases heq
      exact hbv
    · rw [if_neg hcond] at heq
      exact Option.noConfusion heq

theorem get_move_entries_snd_lt {s : BState} {v r nr : ℕ} {flt : ℕ → Bool}
    (hb : ∀ u, s.b u < s.B) (hr : r ≠ null_group → r < s.B)
    (hnr : nr ≠ null_group → nr < s.B) :
    ∀ e ∈ get_move_entries s v r nr flt, e.2.1 < s.B := by
  intro e he
  rcases List.mem_append.1 he with h | h
  · by_cases h0 : r = null_group
    · rw [if_pos h0] at h
      exact absurd h (List.not_mem_nil e)
    · rw [if_neg h0] at h
      exact move_entries_side_snd_lt hb (hr h0) e h
  · by_cases h0 : nr = null_group
    · rw [if_pos h0] at h
      exact absurd h (List.not_mem_nil e)
    · rw [if_neg h0] at h
      exact move_entries_side_snd_lt hb (hnr h0) e h

theorem consistent_modify_vertex_add {s : BState} {A : Finset ℕ} {v r : ℕ}
    (flt : ℕ → Bool) (hc : Consistent s A) (hv : v ∉ A) (hr : r < s.B) :
    Consistent (modify_vertex_add v r flt s) (insert v A) := by
  have h1 : Consistent (entries_op s (get_move_entries s v null_group r flt)) A :=
    consistent_entries_op hc _
      (get_move_entries_snd_lt hc.hb (fun h => absurd rfl h) (fun _ => hr))
  have h2 := consistent_set_b h1 v r hv (by simpa using hr)
  have h3 := consistent_add_partition_node h2 hv (by simpa using hr)
    (by simp)
  exact h3

theorem consistent_modify_vertex_remove {s : BState} {A : Finset ℕ} {v : ℕ}
    (flt : ℕ → Bool) (hc : Consistent s A) (hv : v ∈ A) :
    Consistent (modify_vertex_remove v (s.b v) flt s) (A.erase v) := by
  have hr : s.b v < s.B := hc.hb v
  have h1 : Consistent (entries_op s (get_move_entries s v (s.b v) null_group flt)) A :=
    consistent_entries_op hc _
      (get_move_entries_snd_lt hc.hb (fun _ => hr) (fun h => absurd rfl h))
  have h3 := consistent_remove_partition_node h1 hv
    (show (entries_op s _).b v = s.b v by simp)
  exact h3

theorem move_propagate_eq (v r nr : ℕ) (s : BState) :
    ∃ bc ev, move_propagate v r nr s = { s with bclabel := bc, events := ev } := by
  dsimp only [move_propagate]
  by_cases h1 : s.coupled = true ∧ 0 < s.vweight v
  · rw [if_pos h1]
    by_cases h2 : s.wr r = 0
    · rw [if_pos h2]
      dsimp only
      by_cases h3 : s.wr nr = s.vweight v
      · rw [if_pos h3]
        exact ⟨_, _, rfl⟩
      · rw [if_neg h3]
        exact ⟨s.bclabel, _, rfl⟩
    · rw [if_neg h2]
      by_cases h3 : s.wr nr = s.vweight v
      · rw [if_pos h3]
        exact ⟨_, _, rfl⟩
      · rw [if_neg h3]
        exact ⟨s.bclabel, s.events, rfl⟩
  · rw [if_neg h1]
    exact ⟨s.bclabel, s.events, rfl⟩

theorem consistent_move_propagate {s : BState} {A : Finset ℕ}
    (hc : Consistent s A) (v r nr : ℕ) :
    Consistent (move_propagate v r nr s) A := by
  obtain ⟨bc, ev, heq⟩ := move_propagate_eq v r nr s
  rw [heq]
  exact consistent_congr hc _ rfl rfl rfl rfl rfl rfl rfl rfl

theorem consistent_move_vertex {s s' : BState} {A : Finset ℕ} {v nr : ℕ}
    (hc : Consistent s A) (hv : v ∈ A) (hnr : nr < s.B)
    (hok : move_vertex v (s.b v) nr s = .ok s') : Consistent s' A := by
  unfold move_vertex at hok
  by_cases h1 : s.b v = nr
  · rw [if_pos h1] at hok
    cases hok
    exact hc
  · rw [if_neg h1] at hok
    by_cases h2 : s.allow_move (s.b v) nr true = false
    · rw [if_pos h2] at hok
      exact Except.noConfusion hok
    · rw [if_neg h2] at hok
      cases hok
      have hrem := consistent_modify_vertex_remove (fun _ => false) hc hv
      have hadd := consistent_modify_vertex_add (fun _ => false) hrem
        (Finset.not_mem_erase v A) (by simpa using hnr)
      rw [Finset.insert_erase hv] at hadd
      exact consistent_move_propagate hadd v (s.b v) nr

theorem move_vertex_ok_B {v r nr : ℕ} {s s' : BState}
    (h : move_vertex v r nr s = .ok s') : s'.B = s.B := by
  unfold move_vertex at h
  by_cases h1 : r = nr
  · rw [if_pos h1] at h
    cases h
    rfl
  · rw [if_neg h1] at h
    by_cases h2 : s.allow_move r nr true = false
    · rw [if_pos h2] at h
      exact Except.noConfusion h
    · rw [if_neg h2] at h
      cases h
      simp [add_vertex, remove_vertex]

theorem zip_lookup_mem :
    ∀ (vs rs : List ℕ), vs.length = rs.length → ∀ a ∈ vs,
      ∃ c, (vs.zip rs).lookup a = some c ∧ c ∈ rs := by
  intro vs
  induction vs with
  | nil => intro rs _ a ha; exact absurd ha (List.not_mem_nil a)
  | cons v vt ih =>
    intro rs hlen a ha
    cases rs with
    | nil => simp at hlen
    | cons c ct =>
      by_cases hav : a = v
      · exact ⟨c, by simp [List.lookup, hav], List.mem_cons_self c ct⟩
      · have ha' : a ∈ vt := by
          rcases List.mem_cons.1 ha with h | h
          · exact absurd h hav
          · exact h
        obtain ⟨c', h1, h2⟩ := ih ct (by simpa using hlen) a ha'
        have hb : (a == v) = false := beq_eq_false_iff_ne.2 hav
        exact ⟨c', by simp [List.lookup, List.zip, hb] at h1 ⊢; exact h1,
          List.mem_cons_of_mem _ h2⟩

theorem consistent_foldl_add (flt : ℕ → Bool) :
    ∀ (pairs : List (ℕ × ℕ)) (s : BState) (A : Finset ℕ),
      Consistent s A → (pairs.map Prod.fst).Nodup →
      (∀ p ∈ pairs, p.1 ∉ A) → (∀ p ∈ pairs, p.2 < s.B) →
      Consistent (pairs.foldl (fun st vr => modify_vertex_add vr.1 vr.2 flt st) s)
        (A ∪ (pairs.map Prod.fst).toFinset) := by
  intro pairs
  induction pairs with
  | nil => intro s A hc _ _ _; simpa using hc
  | cons p t ih =>
    intro s A hc hnd hmem hblk
    rw [List.map_cons] at hnd
    have hnd' := List.nodup_cons.1 hnd
    have h1 : Consistent (modify_vertex_add p.1 p.2 flt s) (insert p.1 A) :=
      consistent_modify_vertex_add flt hc (hmem p (List.mem_cons_self p t))
        (hblk p (List.mem_cons_self p t))
    have h2 := ih (modify_vertex_add p.1 p.2 flt s) (insert p.1 A) h1 hnd'.2
      (fun q hq => by
        intro hmem'
        rcases Finset.mem_insert.1 hmem' with h | h
        · exact hnd'.1 (h ▸ List.mem_map_of_mem Prod.fst hq)
        · exact hmem q (List.mem_cons_of_mem p hq) h)
      (fun q hq => by
        have : (modify_vertex_add p.1 p.2 flt s).B = s.B := by simp
        rw [this]
        exact hblk q (List.mem_cons_of_mem p hq))
    have hset : insert p.1 A ∪ (t.map Prod.fst).toFinset
        = A ∪ ((p :: t).map Prod.fst).toFinset := by
      simp only [List.map_cons, List.toFinset_cons]
      rw [Finset.insert_union, Finset.union_insert]
    rw [hset] at h2
    exact h2

theorem consistent_foldl_remove (flt : ℕ → Bool) :
    ∀ (vs : List ℕ) (s : BState) (A : Finset ℕ),
      Consistent s A → vs.Nodup → (∀ v ∈ vs, v ∈ A) →
      Consistent (vs.foldl (fun st v => modify_vertex_remove v (st.b v) flt st) s)
        (A \ vs.toFinset) := by
  intro vs
  induction vs with
  | nil => intro s A hc _ _; simpa using hc
  | cons v t ih =>
    intro s A hc hnd hmem
    have hnd' := List.nodup_cons.1 hnd
    have h1 : Consistent (modify_vertex_remove v (s.b v) flt s) (A.erase v) :=
      consistent_modify_vertex_remove flt hc (hmem v (List.mem_cons_self v t))
    have h2 := ih (modify_vertex_remove v (s.b v) flt s) (A.erase v) h1 hnd'.2
      (fun u hu => Finset.mem_erase.2
        ⟨fun h => hnd'.1 (h ▸ hu), hmem u (List.mem_cons_of_mem v hu)⟩)
    have hset : A.erase v \ t.toFinset = A \ ((v :: t).toFinset) := by
      ext x
      simp only [Finset.mem_sdiff, Finset.mem_erase, List.toFinset_cons,
        Finset.mem_insert]
      tauto
    rw [hset] at h2
    exact h2

theorem consistent_move_vertices_t :
    ∀ (ps : List (ℕ × ℕ)) (s s' : BState) (A : Finset ℕ),
      Consistent s A → (∀ p ∈ ps, p.1 ∈ A) → (∀ p ∈ ps, p.2 < s.B) →
      ps.foldlM (fun st p => move_vertex_pub p.1 p.2 st) s = .ok s' →
      Consistent s' A := by
  intro ps
  induction ps with
  | nil =>
    intro s s' A hc _ _ h
    cases h
    exact hc
  | cons p t ih =>
    intro s s' A hc hmem hblk h
    rw [List.foldlM_cons] at h
    cases hstep : move_vertex_pub p.1 p.2 s with
    | error e => rw [hstep] at h; exact Except.noConfusion h
    | ok s1 =>
      rw [hstep] at h
      have h1 : Consistent s1 A :=
        consistent_move_vertex hc (hmem p (List.mem_cons_self p t))
          (hblk p (List.mem_cons_self p t)) hstep
      have hB : s1.B = s.B := move_vertex_ok_B hstep
      exact ih s1 s' A h1 (fun q hq => hmem q (List.mem_cons_of_mem p hq))
        (fun q hq => hB ▸ hblk q (List.mem_cons_of_mem p hq)) h

theorem foldl_modify_add_B (flt : ℕ → Bool) :
    ∀ (pairs : List (ℕ × ℕ)) (s : BState),
      (pairs.foldl (fun st vr => modify_vertex_add vr.1 vr.2 flt st) s).B = s.B := by
  intro pairs
  induction pairs with
  | nil => intro s; rfl
  | cons p t ih =>
    intro s
    rw [List.foldl_cons]
    rw [ih (modify_vertex_add p.1 p.2 flt s)]
    simp

theorem consistent_add_vertices {s s' : BState} {A : Finset ℕ} {vs rs : List ℕ}
    (hc : Consistent s A) (hnd : vs.Nodup) (hmem : ∀ v ∈ vs, v ∉ A)
    (hblk : ∀ r ∈ rs, r < s.B) (hok : add_vertices vs rs s = .ok s') :
    Consistent s' (A ∪ vs.toFinset) := by
  unfold add_vertices at hok
  by_cases hlen : vs.length ≠ rs.length
  · rw [if_pos hlen] at hok
    exact Except.noConfusion hok
  · rw [if_neg hlen] at hok
    have hleq : vs.length = rs.length := not_ne_iff.1 hlen
    cases hok
    have hfold := consistent_foldl_add (internal_edge s vs) (vs.zip rs) s A hc
      (by rw [List.map_fst_zip vs rs (le_of_eq hleq)]; exact hnd)
      (fun p hp => hmem p.1 (List.of_mem_zip hp).1)
      (fun p hp => hblk p.2 (List.of_mem_zip hp).2)
    rw [List.map_fst_zip vs rs (le_of_eq hleq)] at hfold
    refine consistent_entries_op hfold _ ?_
    intro e he
    rcases List.mem_filterMap.1 he with ⟨ie, hie, heq⟩
    by_cases hcond : internal_edge s vs ie.1 = true
    · rw [if_pos hcond] at heq
      cases heq
      have hget : s.edges.get? ie.1 = some ie.2 := by
        rw [List.get?_eq_getElem?]
        exact List.mem_enum_iff_getElem?.1 hie
      unfold internal_edge at hcond
      rw [hget] at hcond
      have hmem2 : ie.2.2.1 ∈ vs := by
        rw [Bool.and_eq_true] at hcond
        simpa using hcond.2
      obtain ⟨c, hcl, hcr⟩ := zip_lookup_mem vs rs hleq ie.2.2.1 hmem2
      show (((vs.zip rs).lookup ie.2.2.1).getD 0)
        < ((vs.zip rs).foldl (fun st vr => modify_vertex_add vr.1 vr.2
            (internal_edge s vs) st) s).B
      rw [hcl, foldl_modify_add_B]
      exact hblk c hcr
    · rw [if_neg hcond] at heq
      exact Option.noConfusion heq

theorem consistent_remove_vertices {s : BState} {A : Finset ℕ} {vs : List ℕ}
    (hc : Consistent s A) (hnd : vs.Nodup) (hmem : ∀ v ∈ vs, v ∈ A) :
    Consistent (remove_vertices vs s) (A \ vs.toFinset) := by
  unfold remove_vertices
  have hfold := consistent_foldl_remove (internal_edge s vs) vs s A hc hnd hmem
  refine consistent_entries_op hfold _ ?_
  intro e he
  rcases List.mem_filterMap.1 he with ⟨ie, hie, heq⟩
  by_cases hcond : internal_edge s vs ie.1 = true
  · rw [if_pos hcond] at heq
    cases heq
    exact hfold.hb _
  · rw [if_neg hcond] at heq
    exact Option.noConfusion heq

theorem consistent_move_vertices {s s' : BState} {A : Finset ℕ} {vs nrs : List ℕ}
    (hc : Consistent s A) (hmem : ∀ v ∈ vs, v ∈ A)
    (hblk : ∀ r ∈ nrs, r < s.B) (hok : move_vertices vs nrs s = .ok s') :
    Consistent s' A := by
  unfold move_vertices at hok
  by_cases hlen : vs.length ≠ nrs.length
  · rw [if_pos hlen] at hok
    exact Except.noConfusion hok
  · rw [if_neg hlen] at hok
    unfold move_vertices_t at hok
    exact consistent_move_vertices_t (vs.zip nrs) s s' A hc
      (fun p hp => hmem p.1 (List.of_mem_zip hp).1)
      (fun p hp => hblk p.2 (List.of_mem_zip hp).2) hok

/-- Every reachable state is consistent: the central invariant. -/
theorem reach_consistent {s : BState} {A : Finset ℕ} (h : Reach s A) :
    Consistent s A := by
  induction h with
  | init s hc => exact hc
  | add s A v r hre hv hr ih => exact consistent_modify_vertex_add _ ih hv hr
  | remove s A v hre hv ih => exact consistent_modify_vertex_remove _ ih hv
  | move s s' A v nr hre hv hnr hok ih => exact consistent_move_vertex ih hv hnr hok
  | addBulk s s' A vs rs hre hnd hmem hblk hok ih =>
    exact consistent_add_vertices ih hnd hmem hblk hok
  | removeBulk s A vs hre hnd hmem ih => exact consistent_remove_vertices ih hnd hmem
  | moveBulk s s' A vs nrs hre hmem hblk hok ih =>
    exact consistent_move_vertices ih hmem hblk hok

/-! ## Multicanonical sweep lemmas -/

theorem update_succ_le (f : ℕ → ℕ) (x k : ℕ) :
    f k ≤ Function.update f x (f x + 1) k := by
  by_cases h : k = x
  · subst h; rw [Function.update_same]; exact Nat.le_succ _
  · rw [Function.update_noteq h]

theorem mc_iteration_bounds (expf : ℚ → ℚ) (st : MCState) (i : ℕ) (it : MCIter) :
    (mc_iteration expf st i it).1.S_min = st.S_min ∧
    (mc_iteration expf st i it).1.S_max = st.S_max := by
  unfold mc_iteration
  by_cases hskip : it.skip = true
  · rw [if_pos hskip]; exact ⟨rfl, rfl⟩
  · rw [if_neg hskip]
    dsimp only
    constructor <;> (split <;> rfl)

theorem mc_iteration_hist_le (expf : ℚ → ℚ) (st : MCState) (i : ℕ) (it : MCIter)
    (k : ℕ) : st.hist k ≤ (mc_iteration expf st i it).1.hist k := by
  unfold mc_iteration
  by_cases hskip : it.skip = true
  · rw [if_pos hskip]
  · rw [if_neg hskip]
    dsimp only
    split <;> exact update_succ_le st.hist _ k

theorem mc_iteration_S_mem (expf : ℚ → ℚ) (st : MCState) (i : ℕ) (it : MCIter) :
    (mc_iteration expf st i it).1.S = st.S ∨
    (st.S_min ≤ (mc_iteration expf st i it).1.S ∧
      (mc_iteration expf st i it).1.S < st.S_max) := by
  unfold mc_iteration
  by_cases hskip : it.skip = true
  · rw [if_pos hskip]; exact Or.inl rfl
  · rw [if_neg hskip]
    dsimp only
    by_cases hout : st.S + it.dS < st.S_min ∨ st.S_max ≤ st.S + it.dS
    · rw [if_pos hout]
      left
      split <;> rfl
    · rw [if_neg hout]
      have hio := not_or.1 hout
      have hin1 : st.S_min ≤ st.S + it.dS := not_lt.1 hio.1
      have hin2 : st.S + it.dS < st.S_max := not_le.1 hio.2
      by_cases hgt : 0 < st.dens i - st.dens (st.get_bin (st.S + it.dS)) + it.dS_bias
      · rw [if_pos hgt]
        right
        constructor <;> (split <;> first | exact hin1 | exact hin2)
      · rw [if_neg hgt]
        by_cases hu : it.u < expf (st.dens i - st.dens (st.get_bin (st.S + it.dS)) + it.dS_bias)
        · rw [decide_eq_true hu]
          right
          constructor <;> (split <;> first | exact hin1 | exact hin2)
        · rw [decide_eq_false hu]
          left
          split <;> rfl

theorem mc_iteration_hist_update (expf : ℚ → ℚ) (st : MCState) (i : ℕ)
    (it : MCIter) (hskip : it.skip = false) :
    (mc_iteration expf st i it).1.hist
      = Function.update st.hist (mc_iteration expf st i it).2.1
          (st.hist (mc_iteration expf st i it).2.1 + 1) := by
  unfold mc_iteration
  rw [if_neg (by rw [hskip]; exact Bool.false_ne_true)]
  dsimp only
  split <;> rfl

theorem mc_loop_invariant (expf : ℚ → ℚ) :
    ∀ (its : List MCIter) (st : MCState) (i : ℕ),
      st.S_min ≤ st.S → st.S < st.S_max →
      (st.S_min ≤ (mc_loop expf its st i).S ∧
       (mc_loop expf its st i).S < st.S_max ∧
       (mc_loop expf its st i).S_min = st.S_min ∧
       (mc_loop expf its st i).S_max = st.S_max ∧
       ∀ k, st.hist k ≤ (mc_loop expf its st i).hist k) := by
  intro its
  induction its with
  | nil => intro st i h0 h1; exact ⟨h0, h1, rfl, rfl, fun k => le_refl _⟩
  | cons it rest ih =>
    intro st i h0 h1
    have hbd := mc_iteration_bounds expf st i it
    have hS : st.S_min ≤ (mc_iteration expf st i it).1.S ∧
        (mc_iteration expf st i it).1.S < st.S_max := by
      rcases mc_iteration_S_mem expf st i it with h | h
      · rw [h]; exact ⟨h0, h1⟩
      · exact h
    have hh := mc_iteration_hist_le expf st i it
    simp only [mc_loop]
    split
    · exact ⟨hbd.1 ▸ hS.1, hbd.2 ▸ hS.2, hbd.1, hbd.2, hh⟩
    · have hrec := ih (mc_iteration expf st i it).1 (mc_iteration expf st i it).2.1
        (hbd.1 ▸ hS.1) (hbd.2 ▸ hS.2)
      refine ⟨hbd.1 ▸ hrec.1, hbd.2 ▸ hrec.2.1, hbd.1 ▸ hrec.2.2.1,
        hbd.2 ▸ hrec.2.2.2.1, fun k => le_trans (hh k) (hrec.2.2.2.2 k)⟩

/-! ## Claim theorems -/

/-- C1: for every vertex `v`, blocks `r` and `nr`, and entropy
configuration `ea`, `virtual_move(v, r, nr, ea)` returns exactly `0`
when `r = nr`, and returns `+infinity` (`⊤`) when `r` and `nr` are both
real blocks and the label constraint forbids the move (`bclabel[r] ≠
bclabel[nr]` and `nr` nonempty) — in both cases without mutating the
partition state (`virtual_move` is a pure function of the state: the
state is only read, never returned modified). -/
theorem C1_virtual_move_guards (s : BState) (fns : TermFns)
    (cvm : ℕ → ℕ → ℕ → ℚ) (v r nr : ℕ) (ea : EntropyArgs) :
    (r = nr → virtual_move s fns cvm v r nr ea = .ok 0) ∧
    (r ≠ null_group → nr ≠ null_group → s.bclabel r ≠ s.bclabel nr →
      s.wr nr ≠ 0 → virtual_move s fns cvm v r nr ea = .ok ⊤) := by
  constructor
  · intro h
    unfold virtual_move
    rw [if_pos h]
  · intro h1 h2 h3 h4
    have hrn : r ≠ nr := fun h => h3 (h ▸ rfl)
    have ham : s.allow_move r nr true = false := by
      unfold BState.allow_move
      rw [if_pos rfl]
      exact decide_eq_false (not_or.2 ⟨h3, h4⟩)
    unfold virtual_move
    rw [if_neg hrn, if_pos ⟨h1, h2, ham⟩]

/-- C1 witness: both guard branches evaluated on the concrete two-block
state `sW2`. -/
theorem C1_virtual_move_guards_witness :
    virtual_move sW2 fns0 (fun _ _ _ => 0) 0 1 1 eaOff = .ok 0 ∧
    ((0 : ℕ) ≠ null_group ∧ (1 : ℕ) ≠ null_group ∧
      sW2.bclabel 0 ≠ sW2.bclabel 1 ∧ sW2.wr 1 ≠ 0) ∧
    virtual_move sW2 fns0 (fun _ _ _ => 0) 0 0 1 eaOff = .ok ⊤ :=
  ⟨(C1_virtual_move_guards sW2 fns0 (fun _ _ _ => 0) 0 1 1 eaOff).1 rfl,
   ⟨by decide, by decide, by decide, by decide⟩,
   (C1_virtual_move_guards sW2 fns0 (fun _ _ _ => 0) 0 0 1 eaOff).2
     (by decide) (by decide) (by decide) (by decide)⟩

/-- C4: `move_vertex(v, r, nr)` is a no-op when `r = nr` (returning
without error even if the label constraint would forbid the move, since
the `r == nr` check comes first); it raises a `ValueException` — with
no mutation, since the throw precedes every state update — when the
label constraint forbids the move; otherwise it has exactly the effect
of `remove_vertex(v, r)` followed by `add_vertex(v, nr)` plus the
coupled-state propagation of emptied / newly-occupied blocks. -/
theorem C4_move_vertex_cases (s : BState) (v r nr : ℕ) :
    (r = nr → move_vertex v r nr s = .ok s) ∧
    (r ≠ nr → s.bclabel r ≠ s.bclabel nr → s.wr nr ≠ 0 →
      move_vertex v r nr s
        = .error (.valueException "cannot move vertex across clabel barriers")) ∧
    (r ≠ nr → s.allow_move r nr true = true →
      move_vertex v r nr s
        = .ok (move_propagate v r nr (add_vertex v nr (remove_vertex v r s)))) := by
  refine ⟨?_, ?_, ?_⟩
  · intro h
    unfold move_vertex
    rw [if_pos h]
  · intro h1 h2 h3
    have ham : s.allow_move r nr true = false := by
      unfold BState.allow_move
      rw [if_pos rfl]
      exact decide_eq_false (not_or.2 ⟨h2, h3⟩)
    unfold move_vertex
    rw [if_neg h1, if_pos ham]
  · intro h1 h2
    unfold move_vertex
    rw [if_neg h1, if_neg (by rw [h2]; exact (by decide : (true : Bool) ≠ false))]

/-- C4 witness: the three branches on concrete states — a no-op
self-move, a forbidden cross-label move on `sW2`, and an allowed move
on the coupled state `sW2c`. -/
theorem C4_move_vertex_cases_witness :
    move_vertex 0 1 1 sW2 = .ok sW2 ∧
    ((0 : ℕ) ≠ 1 ∧ sW2.bclabel 0 ≠ sW2.bclabel 1 ∧ sW2.wr 1 ≠ 0 ∧
      move_vertex 0 0 1 sW2
        = .error (.valueException "cannot move vertex across clabel barriers")) ∧
    (sW2c.allow_move 0 1 true = true ∧
      move_vertex 0 0 1 sW2c
        = .ok (move_propagate 0 0 1 (add_vertex 0 1 (remove_vertex 0 0 sW2c)))) :=
  ⟨(C4_move_vertex_cases sW2 0 1 1).1 rfl,
   ⟨by decide, by decide, by decide,
    (C4_move_vertex_cases sW2 0 0 1).2.1 (by decide) (by decide) (by decide)⟩,
   ⟨by decide, (C4_move_vertex_cases sW2c 0 0 1).2.2 (by decide) (by decide)⟩⟩

/-- C7: both exported bulk operations taking parallel vertex/block
arrays reject unequal lengths with a `ValueException` before touching
any state.  (The internal `template <class Vec> move_vertices` helper
would iterate the common prefix, but the exported `move_vertices` entry
point performs the length check before delegating to it, and
`add_vertices` carries the check itself.) -/
theorem C7_bulk_length_check (s : BState) (vs rs : List ℕ)
    (h : vs.length ≠ rs.length) :
    add_vertices vs rs s
      = .error (.valueException "vertex and group lists do not have the same size") ∧
    move_vertices vs rs s
      = .error (.valueException "vertex and group lists do not have the same size") := by
  constructor
  · unfold add_vertices
    rw [if_pos h]
  · unfold move_vertices
    rw [if_pos h]

/-- C7 witness: mismatched lengths 1 ≠ 0. -/
theorem C7_bulk_length_check_witness :
    ([0] : List ℕ).length ≠ ([] : List ℕ).length ∧
    add_vertices [0] [] sW1
      = .error (.valueException "vertex and group lists do not have the same size") ∧
    move_vertices [0] [] sW1
      = .error (.valueException "vertex and group lists do not have the same size") :=
  ⟨by decide, C7_bulk_length_check sW1 [0] [] (by decide)⟩

/-- C8: under degree correction, both the dense virtual-move evaluation
and the total dense entropy computation raise `GraphException` instead
of returning a value (the guard precedes every computation). -/
theorem C8_dense_deg_corr_error (s : BState) (fns : TermFns) (v r nr : ℕ)
    (mg : Bool) (hdc : s.deg_corr = true) (hrn : r ≠ nr) :
    virtual_move_dense s fns v r nr mg
      = .error (.graphException "Dense entropy for degree corrected model not implemented!") ∧
    dense_entropy s fns mg
      = .error (.graphException "Dense entropy for degree corrected model not implemented!") := by
  constructor
  · unfold virtual_move_dense
    rw [if_pos hdc]
  · unfold dense_entropy
    rw [if_pos hdc]

/-- C8 witness: the degree-corrected state `sW2d`. -/
theorem C8_dense_deg_corr_error_witness :
    sW2d.deg_corr = true ∧ (0 : ℕ) ≠ 1 ∧
    virtual_move_dense sW2d fns0 0 0 1 false
      = .error (.graphException "Dense entropy for degree corrected model not implemented!") ∧
    dense_entropy sW2d fns0 false
      = .error (.graphException "Dense entropy for degree corrected model not implemented!") :=
  ⟨rfl, by decide, C8_dense_deg_corr_error sW2d fns0 0 0 1 false rfl (by decide)⟩

/-- C6 counterexample: in the concrete path scenario, after
`move_vertex(1, 0, 1)` the block-pair weight `mrs[0,1]` equals 1 — the
previously internal edge (0,1) becomes the cross edge — and not 0 as
the claim states. -/
theorem C6_scenario_counterexample :
    move_vertex 1 0 1 st6 = .ok st6m ∧ st6m.mrs 0 1 ≠ 0 :=
  ⟨rfl, by decide⟩

/-- C6 (amended): on the 4-vertex path with initial partition
`b = [0,0,1,1]`, the bookkeeping yields `mrs[0,1] = 1` (the cross edge
(1,2)), `wr[0] = wr[1] = 2`; after `move_vertex(1, 0, 1)`:
`mrs[0,1] = 1` (edge (0,1) becomes the cross edge — not 0 as claimed),
`mrs[1,1]` increases to account for edge (1,2) becoming internal, and
`wr[0] = 1`, `wr[1] = 3`. -/
theorem C6_scenario :
    add_vertices [0, 1, 2, 3] [0, 0, 1, 1] st6_init = .ok st6 ∧
    st6.mrs 0 1 = 1 ∧ st6.mrs 1 0 = 1 ∧ st6.wr 0 = 2 ∧ st6.wr 1 = 2 ∧
    move_vertex 1 0 1 st6 = .ok st6m ∧
    st6m.mrs 0 1 = 1 ∧ st6m.mrs 1 0 = 1 ∧
    st6.mrs 1 1 < st6m.mrs 1 1 ∧
    st6m.wr 0 = 1 ∧ st6m.wr 1 = 3 := by
  refine ⟨rfl, by decide, by decide, by decide, by decide, rfl,
    by decide, by decide, by decide, by decide, by decide⟩

/-- The one-vertex state `sW1` is consistent with all vertices
inserted. -/
theorem consistent_sW1 : Consistent sW1 (Finset.range sW1.n) := by
  refine ⟨by decide, ?_, ?_, ?_, ?_, ?_, ?_, by decide, by decide, by decide⟩
  · intro u
    exact Nat.zero_lt_one
  · intro u
    exact zero_le_one
  · intro r
    by_cases hr : r = 0
    · subst hr
      show (1 : ℤ) = _
      have hfil : (Finset.range sW1.n).filter (fun u => sW1.b u = 0)
          = Finset.range sW1.n :=
        Finset.filter_true_of_mem (fun u _ => rfl)
      rw [hfil]
      decide
    · show sW1.wr r = _
      have h1 : sW1.wr r = 0 := if_neg hr
      rw [h1, Finset.filter_false_of_mem (fun u _ => fun h => hr (h.symm))]
      simp
  · intro p
    show (0 : ℤ) = _
    simp [sW1]
  · intro r hr
    have h0 := Nat.lt_one_iff.1 hr
    subst h0
    decide
  · intro r hr
    have h0 := Nat.lt_one_iff.1 hr
    subst h0
    decide

/-- C2 counterexample: from the consistent one-vertex state, a single
`remove_vertex` yields a reachable partition state in which the total
block weight (0) no longer equals the total vertex weight (1): the
invariant as claimed fails on states reached through `remove_vertex`. -/
theorem C2_weight_conservation_counterexample :
    Reach (remove_vertex 0 (sW1.b 0) sW1) ((Finset.range sW1.n).erase 0) ∧
    (∑ r ∈ Finset.range (remove_vertex 0 (sW1.b 0) sW1).B,
        (remove_vertex 0 (sW1.b 0) sW1).wr r)
      ≠ ∑ v ∈ Finset.range (remove_vertex 0 (sW1.b 0) sW1).n,
          (remove_vertex 0 (sW1.b 0) sW1).vweight v := by
  constructor
  · exact Reach.remove sW1 (Finset.range sW1.n) 0
      (Reach.init sW1 consistent_sW1) (by decide)
  · decide

/-- C2 (amended): for every reachable partition state, the total block
weight equals the total vertex weight of the *currently inserted*
vertices (so the claimed identity `Σ_r wr[r] = Σ_v vweight[v]` holds
exactly when every vertex is inserted, e.g. under `move_vertex`-only
histories), and `mrp[r] = Σ_s mrs[r,s]` holds for every block
unconditionally. -/
theorem C2_weight_conservation (s : BState) (A : Finset ℕ) (h : Reach s A) :
    (∑ r ∈ Finset.range s.B, s.wr r = ∑ v ∈ A, s.vweight v) ∧
    (∀ r, s.mrp r = ∑ q ∈ Finset.range s.B, s.mrs r q) := by
  have hc := reach_consistent h
  refine ⟨?_, hc.hmrp⟩
  calc ∑ r ∈ Finset.range s.B, s.wr r
      = ∑ r ∈ Finset.range s.B, ∑ u ∈ A.filter (fun u => s.b u = r), s.vweight u :=
        Finset.sum_congr rfl (fun r _ => hc.hwr r)
    _ = ∑ v ∈ A, s.vweight v :=
        Finset.sum_fiberwise_of_maps_to (fun u _ => Finset.mem_range.2 (hc.hb u)) _

/-- C2 witness: the conservation identities on the initial one-vertex
state. -/
theorem C2_weight_conservation_witness :
    Reach sW1 (Finset.range sW1.n) ∧
    ((∑ r ∈ Finset.range sW1.B, sW1.wr r
        = ∑ v ∈ Finset.range sW1.n, sW1.vweight v) ∧
     (∀ r, sW1.mrp r = ∑ q ∈ Finset.range sW1.B, sW1.mrs r q)) :=
  ⟨Reach.init sW1 consistent_sW1,
   C2_weight_conservation sW1 (Finset.range sW1.n) (Reach.init sW1 consistent_sW1)⟩

/-- C3: after every mutation (single or bulk), a real block sits in
`empty_blocks` iff its weight is zero and in `candidate_blocks` iff its
weight is positive, and the `null_group` sentinel is always the first
element of `candidate_blocks`. -/
theorem C3_pool_membership (s : BState) (A : Finset ℕ) (h : Reach s A) :
    (∀ r, r < s.B →
      ((r ∈ s.empty_blocks ↔ s.wr r = 0) ∧
       (r ∈ s.candidate_blocks ↔ 0 < s.wr r))) ∧
    s.candidate_blocks.head? = some null_group := by
  have hc := reach_consistent h
  exact ⟨fun r hr => ⟨hc.hemp r hr, hc.hcand r hr⟩, hc.hhead⟩

/-- C3 witness: pool membership on the state reached by removing and
re-adding the vertex of `sW1` (one remove and one add mutation). -/
theorem C3_pool_membership_witness :
    Reach (add_vertex 0 0 (remove_vertex 0 (sW1.b 0) sW1))
      (insert 0 ((Finset.range sW1.n).erase 0)) ∧
    ((∀ r, r < (add_vertex 0 0 (remove_vertex 0 (sW1.b 0) sW1)).B →
      ((r ∈ (add_vertex 0 0 (remove_vertex 0 (sW1.b 0) sW1)).empty_blocks
          ↔ (add_vertex 0 0 (remove_vertex 0 (sW1.b 0) sW1)).wr r = 0) ∧
       (r ∈ (add_vertex 0 0 (remove_vertex 0 (sW1.b 0) sW1)).candidate_blocks
          ↔ 0 < (add_vertex 0 0 (remove_vertex 0 (sW1.b 0) sW1)).wr r))) ∧
     (add_vertex 0 0 (remove_vertex 0 (sW1.b 0) sW1)).candidate_blocks.head?
        = some null_group) := by
  have h1 : Reach (remove_vertex 0 (sW1.b 0) sW1) ((Finset.range sW1.n).erase 0) :=
    Reach.remove sW1 (Finset.range sW1.n) 0 (Reach.init sW1 consistent_sW1) (by decide)
  have h2 : Reach (add_vertex 0 0 (remove_vertex 0 (sW1.b 0) sW1))
      (insert 0 ((Finset.range sW1.n).erase 0)) :=
    Reach.add (remove_vertex 0 (sW1.b 0) sW1) ((Finset.range sW1.n).erase 0) 0 0 h1
      (by decide) (by decide)
  exact ⟨h2, C3_pool_membership _ _ h2⟩

theorem foldl_snd_add (F : (ℚ × ℤ) → (ℕ × ℤ) → (ℚ × ℤ))
    (hF : ∀ pw ue, (F pw ue).2 = pw.2 + ue.2) :
    ∀ (l : List (ℕ × ℤ)) (p0 : ℚ × ℤ),
      (l.foldl F p0).2 = p0.2 + (l.map Prod.snd).sum := by
  intro l
  induction l with
  | nil => intro p0; simp
  | cons ue t ih =>
    intro p0
    rw [List.foldl_cons, ih (F p0 ue), hF p0 ue]
    simp [add_assoc]

/-- C10: when the total weight of `v`'s incident non-self-loop edges is
zero (an isolated vertex, or only self-loops, or only zero-weight
incident edges), `get_move_prob(v, r, s, c, reverse)` returns exactly
`1/B` for every target block, locality parameter and direction flag,
with `B = candidate_blocks.size() - 1` when `empty_blocks` is empty and
`B = candidate_blocks.size()` otherwise. -/
theorem C10_move_prob_uniform (s : BState) (v r sb : ℕ) (c : ℚ) (rev : Bool)
    (hw : incident_weight s v = 0) :
    get_move_prob s v r sb c rev = 1 / (Bcount s : ℚ) := by
  have hsum : ∀ (F : (ℚ × ℤ) → (ℕ × ℤ) → (ℚ × ℤ)),
      (∀ pw ue, (F pw ue).2 = pw.2 + ue.2) →
      ((incident_edges s v).foldl F (0, 0)).2 = 0 := by
    intro F hF
    rw [foldl_snd_add F hF]
    simpa [incident_weight] using hw
  unfold get_move_prob
  dsimp only
  rw [if_neg ?hneg]
  case hneg =>
    rw [hsum _ (fun _ _ => rfl)]
    exact lt_irrefl 0

/-- C10 witness: the edgeless vertex 0 of `sW1`. -/
theorem C10_move_prob_uniform_witness :
    incident_weight sW1 0 = 0 ∧
    get_move_prob sW1 0 0 0 (1 / 2) false = 1 / (Bcount sW1 : ℚ) :=
  ⟨by decide, C10_move_prob_uniform sW1 0 0 0 (1 / 2) false (by decide)⟩

/-- C9: in every multicanonical sweep started with entropy inside
`[S_min, S_max)`, any proposed move whose resulting entropy lies
outside the window is rejected, so the running entropy never leaves the
window on an accepted move; the visit-histogram counts are monotonically
non-decreasing within the sweep, and every iteration reaching the
accept/reject step bumps the current bin's count by exactly one,
regardless of acceptance. -/
theorem C9_multicanonical_sweep (expf : ℚ → ℚ) (its : List MCIter)
    (st : MCState) (h0 : st.S_min ≤ st.S) (h1 : st.S < st.S_max) :
    MCSweepClaim expf its st := by
  constructor
  · have hguard : ¬(st.S < st.S_min ∨ st.S_max ≤ st.S) :=
      not_or.2 ⟨not_lt.2 h0, not_le.2 h1⟩
    refine ⟨mc_loop expf its st (st.get_bin st.S), ?_, ?_, ?_, ?_⟩
    · unfold multicanonical_sweep
      rw [if_neg hguard]
    · exact (mc_loop_invariant expf its st (st.get_bin st.S) h0 h1).1
    · exact (mc_loop_invariant expf its st (st.get_bin st.S) h0 h1).2.1
    · exact (mc_loop_invariant expf its st (st.get_bin st.S) h0 h1).2.2.2.2
  · intro st0 i it hskip
    exact mc_iteration_hist_update expf st0 i it hskip

/-- C9 witness: a one-iteration sweep over the two-bin window `[0, 2)`. -/
theorem C9_multicanonical_sweep_witness :
    st9.S_min ≤ st9.S ∧ st9.S < st9.S_max ∧ MCSweepClaim (fun _ => 1) its9 st9 :=
  ⟨by decide, by decide,
   C9_multicanonical_sweep (fun _ => 1) its9 st9 (by decide) (by decide)⟩

theorem except_bind_ok {α β : Type} (a : α) (f : α → Except Exc β) :
    (Except.ok a : Except Exc α) >>= f = f a := rfl

theorem except_bind_error {α β : Type} (e : Exc) (f : α → Except Exc β) :
    (Except.error e : Except Exc α) >>= f = Except.error e := rfl

theorem C5_coupled_xor (s : BState) (fns : TermFns) (cvm : ℕ → ℕ → ℕ → ℚ)
    (v r nr : ℕ) (ea : EntropyArgs) (hco : s.coupled = true)
    (hvw : 0 < s.vweight v) (hrn : r ≠ nr)
    (hal : s.allow_move r nr true = true) :
    ((r ≠ null_group ∧ s.wr r = s.vweight v) →
      (nr ≠ null_group ∧ s.wr nr = 0) →
      virtual_move s fns cvm v r nr ea
        = virtual_move s fns (fun _ _ _ => 0) v r nr ea) ∧
    (∀ q : ℚ, virtual_move s fns (fun _ _ _ => 0) v r nr ea = .ok ((q : ℚ) : WithTop ℚ) →
      ((r ≠ null_group ∧ s.wr r = s.vweight v) →
        ¬(nr ≠ null_group ∧ s.wr nr = 0) →
        virtual_move s fns cvm v r nr ea
          = .ok ((q + cvm r (s.bclabel r) null_group : ℚ) : WithTop ℚ)) ∧
      (¬(r ≠ null_group ∧ s.wr r = s.vweight v) →
        (nr ≠ null_group ∧ s.wr nr = 0) →
        virtual_move s fns cvm v r nr ea
          = .ok ((q + cvm nr null_group (s.bclabel r) : ℚ) : WithTop ℚ))) := by
  have hgl : ¬(r ≠ null_group ∧ nr ≠ null_group ∧ s.allow_move r nr true = false) := by
    rintro ⟨_, _, hf⟩
    rw [hal] at hf
    exact (by decide : (true : Bool) ≠ false) hf
  have hcc : s.coupled = true ∧ 0 < s.vweight v := ⟨hco, hvw⟩
  refine ⟨?_, ?_⟩
  · intro hrv hno
    unfold virtual_move
    simp only [if_neg hrn, if_neg hgl, if_pos hcc, decide_eq_true hrv,
      decide_eq_true hno, ne_eq, not_true_eq_false, if_false]
  · intro q hq
    constructor
    · intro hrv hno
      unfold virtual_move at hq ⊢
      simp only [if_neg hrn, if_neg hgl, if_pos hcc, decide_eq_true hrv,
        decide_eq_false hno, ne_eq, Bool.true_eq_false, Bool.false_eq_true,
        not_false_eq_true, if_true, if_false, ite_self, add_zero] at hq ⊢
      by_cases hadj : ea.adjacency = true
      · simp only [if_pos hadj] at hq ⊢
        by_cases hden : ea.dense = true
        · simp only [if_pos hden] at hq ⊢
          cases hD : virtual_move_dense s fns v r nr ea.multigraph with
          | error e =>
            rw [hD] at hq
            rw [except_bind_error] at hq
            exact Except.noConfusion hq
          | ok q0 =>
            rw [hD] at hq
            rw [except_bind_ok] at hq ⊢
            have hX := WithTop.coe_eq_coe.1 (Except.ok.inj hq)
            rw [hX]
        · simp only [if_neg hden] at hq ⊢
          rw [except_bind_ok] at hq ⊢
          have hX := WithTop.coe_eq_coe.1 (Except.ok.inj hq)
          rw [hX]
      · simp only [if_neg hadj] at hq ⊢
        rw [except_bind_ok] at hq ⊢
        have hX := WithTop.coe_eq_coe.1 (Except.ok.inj hq)
        rw [hX]
    · intro hrv hno
      unfold virtual_move at hq ⊢
      simp only [if_neg hrn, if_neg hgl, if_pos hcc, decide_eq_false hrv,
        decide_eq_true hno, ne_eq, Bool.true_eq_false, Bool.false_eq_true,
        not_false_eq_true, if_true, if_false, ite_self, add_zero, zero_add] at hq ⊢
      by_cases hadj : ea.adjacency = true
      · simp only [if_pos hadj] at hq ⊢
        by_cases hden : ea.dense = true
        · simp only [if_pos hden] at hq ⊢
          cases hD : virtual_move_dense s fns v r nr ea.multigraph with
          | error e =>
            rw [hD] at hq
            rw [except_bind_error] at hq
            exact Except.noConfusion hq
          | ok q0 =>
            rw [hD] at hq
            rw [except_bind_ok] at hq ⊢
            have hX := WithTop.coe_eq_coe.1 (Except.ok.inj hq)
            rw [hX]
        · simp only [if_neg hden] at hq ⊢
          rw [except_bind_ok] at hq ⊢
          have hX := WithTop.coe_eq_coe.1 (Except.ok.inj hq)
          rw [hX]
      · simp only [if_neg hadj] at hq ⊢
        rw [except_bind_ok] at hq ⊢
        have hX := WithTop.coe_eq_coe.1 (Except.ok.inj hq)
        rw [hX]

/-- C5 counterexample: on `sW2c`, moving vertex 0 from block 0 to block
1 both vacates `r = 0` (`wr[0] = vweight[0] = 1`) and occupies `nr = 1`
(`wr[1] = 0`); with a parent evaluator returning the constant 100 and
all entropy terms zero, `virtual_move` returns 0 — neither the claimed
vacate delta (100) nor both deltas (200) are added, refuting the claim
that each applicable parent delta is added whenever its own condition
holds. -/
theorem C5_coupled_xor_counterexample :
    sW2c.coupled = true ∧ 0 < sW2c.vweight 0 ∧
    ((0 : ℕ) ≠ null_group ∧ sW2c.wr 0 = sW2c.vweight 0) ∧
    ((1 : ℕ) ≠ null_group ∧ sW2c.wr 1 = 0) ∧
    virtual_move sW2c fns0 (fun _ _ _ => 100) 0 0 1 eaOff = .ok ((0 : ℚ) : WithTop ℚ) ∧
    virtual_move sW2c fns0 (fun _ _ _ => 100) 0 0 1 eaOff ≠ .ok ((100 : ℚ) : WithTop ℚ) ∧
    virtual_move sW2c fns0 (fun _ _ _ => 100) 0 0 1 eaOff ≠ .ok ((200 : ℚ) : WithTop ℚ) := by
  have hval : virtual_move sW2c fns0 (fun _ _ _ => 100) 0 0 1 eaOff
      = .ok ((0 : ℚ) : WithTop ℚ) := by
    have h2 : ¬((0 : ℕ) ≠ null_group ∧ (1 : ℕ) ≠ null_group ∧
        sW2c.allow_move 0 1 true = false) := by
      rintro ⟨_, _, hf⟩
      rw [show sW2c.allow_move 0 1 true = true from rfl] at hf
      exact (by decide : (true : Bool) ≠ false) hf
    unfold virtual_move
    simp only [if_neg (by decide : ¬(0 : ℕ) = 1), if_neg h2,
      if_neg (by decide : ¬eaOff.adjacency = true),
      if_pos (⟨rfl, by decide⟩ : sW2c.coupled = true ∧ 0 < sW2c.vweight 0),
      decide_eq_true (by decide : (0 : ℕ) ≠ null_group ∧ sW2c.wr 0 = sW2c.vweight 0),
      decide_eq_true (by decide : (1 : ℕ) ≠ null_group ∧ sW2c.wr 1 = 0),
      if_neg (by decide : ¬eaOff.partition_dl = true),
      if_neg (by decide : ¬(sW2c.deg_corr = true ∧ eaOff.degree_dl = true)),
      if_neg (by decide : ¬eaOff.edges_dl = true),
      ne_eq, not_true_eq_false, if_false]
    rw [except_bind_ok]
    norm_num
  refine ⟨rfl, by decide, ⟨by decide, by decide⟩, ⟨by decide, by decide⟩, hval, ?_, ?_⟩
  · rw [hval]
    intro h
    have := WithTop.coe_eq_coe.1 (Except.ok.inj h)
    norm_num at this
  · rw [hval]
    intro h
    have := WithTop.coe_eq_coe.1 (Except.ok.inj h)
    norm_num at this

/-- C5 witness: on `sW2v` the move only vacates `r = 0` (block 1 holds
weight 5), so exactly the parent delta for `r` is added. -/
theorem C5_coupled_xor_witness :
    sW2v.coupled = true ∧ 0 < sW2v.vweight 0 ∧ (0 : ℕ) ≠ 1 ∧
    sW2v.allow_move 0 1 true = true ∧
    virtual_move sW2v fns0 (fun _ _ _ => 0) 0 0 1 eaOff = .ok ((0 : ℚ) : WithTop ℚ) ∧
    ((0 : ℕ) ≠ null_group ∧ sW2v.wr 0 = sW2v.vweight 0) ∧
    ¬((1 : ℕ) ≠ null_group ∧ sW2v.wr 1 = 0) ∧
    virtual_move sW2v fns0 (fun _ _ _ => 100) 0 0 1 eaOff
      = .ok ((0 + (fun _ _ _ => (100 : ℚ)) 0 (sW2v.bclabel 0) null_group : ℚ) : WithTop ℚ) := by
  have hzero : virtual_move sW2v fns0 (fun _ _ _ => 0) 0 0 1 eaOff
      = .ok ((0 : ℚ) : WithTop ℚ) := by
    have h2 : ¬((0 : ℕ) ≠ null_group ∧ (1 : ℕ) ≠ null_group ∧
        sW2v.allow_move 0 1 true = false) := by
      rintro ⟨_, _, hf⟩
      rw [show sW2v.allow_move 0 1 true = true from rfl] at hf
      exact (by decide : (true : Bool) ≠ false) hf
    unfold virtual_move
    simp only [if_neg (by decide : ¬(0 : ℕ) = 1), if_neg h2,
      if_neg (by decide : ¬eaOff.adjacency = true),
      if_pos (⟨rfl, by decide⟩ : sW2v.coupled = true ∧ 0 < sW2v.vweight 0),
      decide_eq_true (by decide : (0 : ℕ) ≠ null_group ∧ sW2v.wr 0 = sW2v.vweight 0),
      decide_eq_false (by decide : ¬((1 : ℕ) ≠ null_group ∧ sW2v.wr 1 = 0)),
      if_neg (by decide : ¬eaOff.partition_dl = true),
      if_neg (by decide : ¬(sW2v.deg_corr = true ∧ eaOff.degree_dl = true)),
      if_neg (by decide : ¬eaOff.edges_dl = true),
      ne_eq, Bool.true_eq_false, Bool.false_eq_true, not_false_eq_true,
      if_true, if_false, ite_self, add_zero]
    rw [except_bind_ok]
  refine ⟨rfl, by decide, by decide, by decide, hzero, ⟨by decide, by decide⟩,
    by decide, ?_⟩
  exact ((C5_coupled_xor sW2v fns0 (fun _ _ _ => 100) 0 0 1 eaOff rfl (by decide)
    (by decide) (by decide)).2 0 hzero).1 ⟨by decide, by decide⟩ (by decide)
